import Mathlib

/-!
# Verification of the act-cli expression engine against its specification

This file gives a shallow embedding of the core of the act-cli CI workflow
evaluator (the `v2` expression evaluation engine, the JSON built-ins, the
strategy expander, the template rewriter and the schema expression checker)
and proves or refutes the properties claimed by the specification.

Modelling conventions:
* Go `float64` values are modelled exactly: a number is either NaN, one of the
  two infinities, or an exact rational.  IEEE-754 rounding is not modelled;
  every property proved here is independent of rounding.
* Go strings are modelled as Lean `String`s (sequences of unicode scalar
  values).  Byte-level comparisons coincide with character-level comparisons
  on these because UTF-8 preserves codepoint order.
* Go `map` values are modelled as association lists.  Where Go iterates a map
  in unspecified order the model fixes the list order; theorems that would be
  sensitive to that order carry explicit no-duplicate hypotheses.
* A Go runtime panic is modelled as the explicit value `GoFault.panic`.
-/

namespace ActCli

/-- The six value kinds of the evaluation engine
(src/internal/eval/v2/evaluation_result.go, `ValueKind`). -/
inductive ValueKind where
  | null | boolean | number | string | object | array
deriving DecidableEq, Repr

/-- A Go `float64`, modelled exactly: NaN, the infinities, or a finite value
modelled as an exact rational. -/
inductive NumV where
  | nan
  | posInf
  | negInf
  | fin (q : ℚ)
deriving DecidableEq, Repr

/-- A raw (non-canonical) Go value as it appears inside `interface{}`
containers: the payload of `map[string]interface{}` / `[]interface{}` data,
e.g. the output of `json.Unmarshal`.  Go's various integer types all convert
to `float64` exactly, so a single numeric constructor suffices. -/
inductive GoVal where
  | gnil
  | gbool (b : Bool)
  | gnum (n : NumV)
  | gstr (s : String)
  | garr (xs : List GoVal)
  | gobj (entries : List (String × GoVal))
deriving Repr

/-- A canonical value as stored in `EvaluationResult.value`
(src/internal/eval/v2/evaluation_result.go, `convertToCanonicalValue`):
primitives, a `BasicArray`, a `FilteredArray`
(src/internal/eval/v2/evaluator.go), or a `CaseInsensitiveObject`.
Collection elements stay raw (`GoVal`); they are canonicalized lazily on
access, exactly as in the Go code. -/
inductive Value where
  | vnull
  | vbool (b : Bool)
  | vnum (n : NumV)
  | vstr (s : String)
  | varr (xs : List GoVal)
  | vfarr (xs : List GoVal)
  | vobj (entries : List (String × GoVal))
deriving Repr

/-- `getKind` (evaluation_result.go).  The Go type switch matches the
unnamed types `[]interface{}` / `map[string]interface{}` only; the canonical
collection types `BasicArray`, `FilteredArray` and `CaseInsensitiveObject`
are distinct named types and therefore fall into the `default` branch, which
returns `ValueKindObject`.  Hence every canonical collection reports kind
`object` here. -/
def getKindV : Value → ValueKind
  | .vnull => .null
  | .vbool _ => .boolean
  | .vnum _ => .number
  | .vstr _ => .string
  | .varr _ => .object
  | .vfarr _ => .object
  | .vobj _ => .object

/-- `convertToCanonicalValue` (evaluation_result.go): lowers a raw Go value
into a canonical one.  Only the outermost layer is converted. -/
def convertToCanonicalValue : GoVal → Value
  | .gnil => .vnull
  | .gbool b => .vbool b
  | .gnum n => .vnum n
  | .gstr s => .vstr s
  | .garr xs => .varr xs
  | .gobj es => .vobj es

/-- ASCII case folding of one character, as used by `strings.EqualFold` /
`strings.ToLower` on the ASCII subset (the spec declares ASCII folding
sufficient). -/
def foldChar (c : Char) : Char := c.toLower

/-- `strings.EqualFold`: case-insensitive equality, character by character. -/
def strEqualFold (a b : String) : Bool :=
  a.data.map foldChar == b.data.map foldChar

/-- Byte-lexicographic strict order on strings, as decided by
`strings.Compare(a, b) < 0`.  UTF-8 byte order coincides with codepoint
order, so the character-list lexicographic order is used. -/
def charListLt : List Char → List Char → Bool
  | [], [] => false
  | [], _ :: _ => true
  | _ :: _, [] => false
  | a :: as, b :: bs => a < b || (a == b && charListLt as bs)

/-- `strings.Compare(a, b) < 0`. -/
def strCompareLt (a b : String) : Bool := charListLt a.data b.data

/-- IEEE equality on doubles (`l == r` in Go): NaN is never equal. -/
def numEq : NumV → NumV → Bool
  | .fin a, .fin b => a == b
  | .posInf, .posInf => true
  | .negInf, .negInf => true
  | _, _ => false

/-- IEEE strict order on doubles (`l < r` in Go): NaN poisons. -/
def numLt : NumV → NumV → Bool
  | .fin a, .fin b => a < b
  | .fin _, .posInf => true
  | .negInf, .fin _ => true
  | .negInf, .posInf => true
  | _, _ => false

/-- IEEE strict order on doubles (`l > r` in Go). -/
def numGt : NumV → NumV → Bool
  | .fin a, .fin b => b < a
  | .posInf, .fin _ => true
  | .posInf, .negInf => true
  | .fin _, .negInf => true
  | _, _ => false

/-- Decimal digit test (`'0' <= c && c <= '9'`). -/
def isDigitCh (c : Char) : Bool := '0' ≤ c && c ≤ '9'

/-- Numeric value of a list of decimal digits, most significant first. -/
def digitsToNat (cs : List Char) : Nat :=
  cs.foldl (fun a c => a * 10 + (c.toNat - 48)) 0

/-- Hexadecimal digit value, if any. -/
def hexDigitVal? (c : Char) : Option Nat :=
  if '0' ≤ c ∧ c ≤ '9' then some (c.toNat - 48)
  else if 'a' ≤ c ∧ c ≤ 'f' then some (c.toNat - 87)
  else if 'A' ≤ c ∧ c ≤ 'F' then some (c.toNat - 55)
  else none

/-- Octal digit value, if any. -/
def octDigitVal? (c : Char) : Option Nat :=
  if '0' ≤ c ∧ c ≤ '7' then some (c.toNat - 48) else none

/-- Accumulate digits of the given base; `none` if any character is not a
digit or the list is empty. -/
def parseBaseDigits (digit? : Char → Option Nat) (base : Nat) :
    List Char → Option Nat
  | [] => none
  | cs => cs.foldl (fun acc c => do
      let a ← acc
      let d ← digit? c
      pure (a * base + d)) (some 0)

/-- `strconv.ParseFloat(s, 64)`, restricted to the decimal and named forms
(`inf`/`infinity` with optional sign, unsigned `nan`, and ordinary decimal
literals with optional fraction and exponent).  Values are kept exact;
IEEE rounding, overflow to infinity, hexadecimal floats and underscore
separators are not modelled — no claim in this development depends on
them. -/
def goParseFloat (s : String) : Option NumV :=
  let cs := s.data
  let lower := String.mk (cs.map foldChar)
  if lower = "nan" then some .nan
  else if lower = "inf" ∨ lower = "infinity" ∨ lower = "+inf" ∨ lower = "+infinity" then
    some .posInf
  else if lower = "-inf" ∨ lower = "-infinity" then some .negInf
  else
    -- split the optional sign
    let (sign, rest) : ℚ × List Char :=
      match cs with
      | '-' :: t => (-1, t)
      | '+' :: t => (1, t)
      | t => (1, t)
    -- split mantissa and exponent at the first 'e'/'E'
    let (mant, expo) : List Char × Option (List Char) :=
      match rest.splitOnP (fun c => c = 'e' ∨ c = 'E') with
      | [m] => (m, none)
      | [m, e] => (m, some e)
      | _ => ([], some [])     -- more than one exponent marker: fail below
    -- parse the exponent
    let expVal : Option Int :=
      match expo with
      | none => some 0
      | some ('-' :: ds) => if ds ≠ [] ∧ ds.all isDigitCh then some (-(digitsToNat ds : Int)) else none
      | some ('+' :: ds) => if ds ≠ [] ∧ ds.all isDigitCh then some (digitsToNat ds : Int) else none
      | some ds => if ds ≠ [] ∧ ds.all isDigitCh then some (digitsToNat ds : Int) else none
    -- parse the mantissa: digits with at most one dot, at least one digit
    let mantVal : Option ℚ :=
      match mant.splitOn '.' with
      | [i] => if i ≠ [] ∧ i.all isDigitCh then some (digitsToNat i : ℚ) else none
      | [i, f] =>
        if (i ++ f) ≠ [] ∧ (i ++ f).all isDigitCh then
          some ((digitsToNat (i ++ f) : ℚ) / (10 : ℚ) ^ f.length)
        else none
      | _ => none
    match mantVal, expVal with
    | some m, some e => some (.fin (sign * m * (10 : ℚ) ^ e))
    | _, _ => none

/-- The string branch of `convertToNumber` (evaluation_result.go):
empty string is 0; a `0x`/`0o` prefix (on strings longer than two
characters) is parsed by `strconv.ParseInt(val, 0, 32)` — on success the
integer is used, on failure (bad digits or a value beyond `int32` range)
the code falls through to `ParseFloat`, which rejects such strings, giving
NaN; otherwise `ParseFloat`, with NaN on failure. -/
def parseGoNumberString (s : String) : NumV :=
  if s = "" then .fin 0
  else if s.length > 2 ∧ (s.take 2 = "0x" ∨ s.take 2 = "0o") then
    let digits := s.data.drop 2
    let parsed : Option Nat :=
      if s.take 2 = "0x" then parseBaseDigits hexDigitVal? 16 digits
      else parseBaseDigits octDigitVal? 8 digits
    match parsed with
    | some n => if n ≤ 2147483647 then .fin n else .nan
    | none => .nan
  else
    match goParseFloat s with
    | some n => n
    | none => .nan

/-- `convertToNumber` (evaluation_result.go): JavaScript-like conversion of a
canonical value to a double.  Collections give NaN (the `default` branch). -/
def convertToNumberV : Value → NumV
  | .vnull => .fin 0
  | .vbool b => .fin (if b then 1 else 0)
  | .vnum n => n
  | .vstr s => parseGoNumberString s
  | _ => .nan

/-- Weight used to justify termination of `coerceTypes`: each recursive call
replaces a boolean/null side with a number. -/
def boolNullWeight : Value → Nat
  | .vbool _ => 1
  | .vnull => 1
  | _ => 0

/-- `coerceTypes` (evaluation_result.go): converts the two sides to
compatible types before comparison.  Number/string pairs coerce the string;
a boolean or null side is converted to a number and coercion restarts.
The Go code binds `leftKind`/`rightKind` once up front; they are inlined
here so the recursion is visibly well-founded. -/
def coerceTypes (l r : Value) : Value × Value :=
  if getKindV l = getKindV r then (l, r)
  else if getKindV l = .number ∧ getKindV r = .string then
    (l, .vnum (convertToNumberV r))
  else if getKindV l = .string ∧ getKindV r = .number then
    (.vnum (convertToNumberV l), r)
  else if getKindV l = .boolean ∨ getKindV l = .null then
    coerceTypes (.vnum (convertToNumberV l)) r
  else if getKindV r = .boolean ∨ getKindV r = .null then
    coerceTypes l (.vnum (convertToNumberV r))
  else (l, r)
termination_by boolNullWeight l + boolNullWeight r
decreasing_by
  · cases l <;> simp_all [boolNullWeight, getKindV]
  · cases r <;> simp_all [boolNullWeight, getKindV]

/-- `abstractEqual` (evaluation_result.go): coerce, then compare when the
kinds agree.  Null equals null; numbers are IEEE-equal (NaN poisons);
strings compare case-insensitively; booleans by identity; collections
(which all report kind `object`, see `getKindV`) always compare false. -/
def abstractEqual (l r : Value) : Bool :=
  match coerceTypes l r with
  | (.vnull, .vnull) => true
  | (.vnum a, .vnum b) => numEq a b
  | (.vstr a, .vstr b) => strEqualFold a b
  | (.vbool a, .vbool b) => a == b
  | _ => false

/-- `abstractGreaterThan` (evaluation_result.go). -/
def abstractGreaterThan (l r : Value) : Bool :=
  match coerceTypes l r with
  | (.vnum a, .vnum b) => numGt a b
  | (.vstr a, .vstr b) => strCompareLt b a
  | (.vbool a, .vbool b) => a && !b
  | _ => false

/-- `abstractLessThan` (evaluation_result.go). -/
def abstractLessThan (l r : Value) : Bool :=
  match coerceTypes l r with
  | (.vnum a, .vnum b) => numLt a b
  | (.vstr a, .vstr b) => strCompareLt a b
  | (.vbool a, .vbool b) => !a && b
  | _ => false

lemma numEq_symm (a b : NumV) : numEq a b = numEq b a := by
  cases a <;> cases b <;> simp [numEq, beq_iff_eq, eq_comm]

lemma strEqualFold_symm (a b : String) : strEqualFold a b = strEqualFold b a := by
  simp [strEqualFold, beq_iff_eq, eq_comm]

lemma numGt_numLt_exclusive (a b : NumV) :
    ¬(numGt a b = true ∧ numLt a b = true) := by
  cases a <;> cases b <;> simp [numGt, numLt]
  exact fun h => h.le

lemma charListLt_asymm :
    ∀ x y : List Char, ¬(charListLt x y = true ∧ charListLt y x = true)
  | [], [] => by simp [charListLt]
  | [], _ :: _ => by simp [charListLt]
  | _ :: _, [] => by simp [charListLt]
  | a :: as, b :: bs => by
    simp only [charListLt, Bool.or_eq_true, Bool.and_eq_true, beq_iff_eq,
      decide_eq_true_eq, not_and]
    rintro (hab | ⟨hab, h1⟩) (hba | ⟨hba, h2⟩)
    · exact absurd hba (not_lt.mpr hab.le)
    · exact absurd hab (hba ▸ lt_irrefl b)
    · exact absurd hba (hab ▸ lt_irrefl a)
    · exact charListLt_asymm as bs ⟨h1, h2⟩

/-- Coercion is symmetric: coercing `(r, l)` gives the swap of coercing
`(l, r)`. -/
lemma coerceTypes_swap (l r : Value) :
    coerceTypes r l = ((coerceTypes l r).2, (coerceTypes l r).1) := by
  cases l <;> cases r <;> simp [coerceTypes, getKindV]

/-- C1.  Abstract equality is symmetric, and the strict orderings are
mutually exclusive, for all canonical values (including after the
number/string and boolean/null coercions performed by `coerceTypes`). -/
theorem abstractEqual_symm_orders_exclusive (l r : Value) :
    abstractEqual l r = abstractEqual r l ∧
      ¬(abstractGreaterThan l r = true ∧ abstractLessThan l r = true) := by
  have hs := coerceTypes_swap l r
  refine ⟨?_, ?_⟩
  · unfold abstractEqual
    rcases h : coerceTypes l r with ⟨a, b⟩
    rw [h] at hs
    rw [hs]
    cases a <;> cases b <;>
      simp [numEq_symm, strEqualFold_symm, beq_iff_eq, eq_comm]
  · unfold abstractGreaterThan abstractLessThan
    rcases h : coerceTypes l r with ⟨a, b⟩
    clear h hs
    cases a <;> cases b <;> simp only [Bool.and_eq_true, not_and]
    case vnum.vnum =>
      rename_i x y
      exact fun h1 h2 => numGt_numLt_exclusive x y ⟨h1, h2⟩
    case vstr.vstr =>
      rename_i s t
      exact fun h1 h2 => charListLt_asymm t.data s.data ⟨h1, h2⟩
    case vbool.vbool =>
      rename_i x y
      cases x <;> cases y <;> simp
    all_goals exact fun h1 h2 => absurd h1 Bool.false_ne_true

/-! ## Number formatting

Finite doubles are dyadic rationals, so they always admit an exact finite
decimal representation.  `ratDecimalString` produces it; it returns `none`
for rationals whose denominator has a prime factor other than 2 and 5 —
such values do not arise from doubles.  Go's `%.15g` (`ConvertToString`)
rounds to 15 significant digits and may use exponent notation; the exact
decimal form is used here instead, which no claim depends on. -/

/-- Fuel-driven worker for `factorOut` (fuel `n` always suffices, since
the argument at least halves each step). -/
def factorOutAux : Nat → Nat → Nat → Nat × Nat
  | 0, _, n => (0, n)
  | fuel + 1, p, n =>
    if 2 ≤ p ∧ 0 < n ∧ n % p = 0 then
      let r := factorOutAux fuel p (n / p)
      (r.1 + 1, r.2)
    else (0, n)

/-- Factor `p` out of `n`: returns `(k, m)` with `n = p^k * m` and `p ∤ m`
(for `2 ≤ p`, `0 < n`). -/
def factorOut (p n : Nat) : Nat × Nat := factorOutAux n p n

/-- Fuel-driven worker for `natToDigits`, accumulating digits from the
least significant end (fuel `n` always suffices). -/
def natToDigitsAux : Nat → Nat → List Char → List Char
  | 0, _, acc => acc
  | fuel + 1, n, acc =>
    if n = 0 then acc
    else natToDigitsAux fuel (n / 10) (Char.ofNat (48 + n % 10) :: acc)

/-- Decimal digits of a natural number, most significant first
(empty for 0). -/
def natToDigits (n : Nat) : List Char := natToDigitsAux n n []

/-- Decimal digit string of a natural number. -/
def natDigitString (n : Nat) : List Char :=
  if n = 0 then ['0'] else natToDigits n

/-- Exact decimal representation of a rational, if one exists: the digit
string of `|num| * 10^e / den` with a decimal point `e` digits from the
right, where `e` is minimal with `den ∣ 10^e`. -/
def ratDecimalString (q : ℚ) : Option String :=
  let f2 := factorOut 2 q.den
  let f5 := factorOut 5 f2.2
  if f5.2 ≠ 1 then none
  else
    let e := max f2.1 f5.1
    let scaled := q.num.natAbs * 10 ^ e / q.den
    let ds := natDigitString scaled
    let ds := List.replicate (e + 1 - ds.length) '0' ++ ds
    let body :=
      if e = 0 then ds
      else ds.take (ds.length - e) ++ '.' :: ds.drop (ds.length - e)
    some (String.mk (if q.num < 0 then '-' :: body else body))

/-- Go `fmt.Sprintf("%.15g", f)` as used by `ConvertToString`
(evaluation_result.go): named values for NaN and the infinities, exact
decimal for finite values (see module note above). -/
def formatNumGo : NumV → String
  | .nan => "NaN"
  | .posInf => "+Inf"
  | .negInf => "-Inf"
  | .fin q => (ratDecimalString q).getD ""

/-- `EvaluationResult.IsFalsy` (evaluation_result.go): null, false, 0, NaN
and the empty string are falsy; everything else is truthy. -/
def isFalsy : Value → Bool
  | .vnull => true
  | .vbool b => !b
  | .vnum n =>
    match n with
    | .fin q => q == 0
    | .nan => true
    | _ => false
  | .vstr s => s == ""
  | _ => false

/-- `EvaluationResult.IsTruthy`. -/
def isTruthy (v : Value) : Bool := !isFalsy v

/-- `EvaluationResult.ConvertToString` (evaluation_result.go).  The
`default` branch (`fmt.Sprintf("%v", …)` on collections) is not modelled —
every verified code path returns from a collection before reaching it — and
yields a placeholder here. -/
def convertToStringV : Value → String
  | .vnull => ""
  | .vbool b => if b then "true" else "false"
  | .vnum n => formatNumGo n
  | .vstr s => s
  | _ => ""

/-! ## Built-in functions (src/unnamed/part_001, package v2) -/

/-- `strings.Contains(hay, needle)`: needle occurs as a contiguous
substring. -/
def hasSubstr (hay needle : List Char) : Bool :=
  match hay with
  | [] => needle.isEmpty
  | _ :: rest => needle.isPrefixOf hay || hasSubstr rest needle

/-- `Contains.Evaluate` (part_001): when the first argument is a collection,
true iff it is an array with some element abstract-equal to the needle
(objects give false); otherwise a case-insensitive substring test on the
string conversions. -/
def containsEval (collection el : Value) : Value :=
  match collection with
  | .varr xs =>
    .vbool (xs.any fun v => abstractEqual (convertToCanonicalValue v) el)
  | .vfarr xs =>
    .vbool (xs.any fun v => abstractEqual (convertToCanonicalValue v) el)
  | .vobj _ => .vbool false
  | _ =>
    .vbool (hasSubstr ((convertToStringV collection).data.map foldChar)
      ((convertToStringV el).data.map foldChar))

/-- `CaseInsensitiveObject.Get` (evaluation_result.go): first entry whose
key folds equal; the zero value (`gnil`) when none matches.  Go iterates
the map in unspecified order; the list order stands in for it, so results
involving several fold-equal keys carry a no-duplicates hypothesis. -/
def ciGet (entries : List (String × GoVal)) (key : String) : GoVal :=
  match entries.find? (fun kv => strEqualFold kv.1 key) with
  | some kv => kv.2
  | none => .gnil

/-- The named-value branch of `Evaluator.evalNode` (evaluator.go, line
114): case-insensitive lookup in `Variables`; the Go code tests the looked
up `interface{}` against nil, which conflates a missing entry with a stored
nil, and otherwise wraps the raw value with `CreateIntermediateResult`. -/
def evalNamedValue (vars : List (String × GoVal)) (name : String) :
    Except String Value :=
  match ciGet vars name with
  | .gnil => .error ("undefined variable " ++ name)
  | v => .ok (convertToCanonicalValue v)

/-! ## Index application (evaluator.go) -/

/-- A Go runtime fault (panic). -/
inductive GoFault where
  | panic
deriving DecidableEq, Repr

/-- `BasicArray.GetAt` (evaluation_result.go, line 42): `int(i) >= len`
returns the zero value (nil); otherwise `a[i]`, which faults when `i` is
negative. -/
def basicGetAt (a : List GoVal) (i : Int) : Except GoFault GoVal :=
  if (a.length : Int) ≤ i then .ok .gnil
  else if i < 0 then .error .panic
  else .ok (a.getD i.toNat .gnil)

/-- `FilteredArray.GetAt` (evaluator.go, line 102): the guard is
`int(i) > len(a)` — strictly greater — so the access `a[i]` is reached when
`i` equals the length and faults there. -/
def filteredGetAt (a : List GoVal) (i : Int) : Except GoFault GoVal :=
  if (a.length : Int) < i then .ok .gnil
  else if 0 ≤ i ∧ i < (a.length : Int) then .ok (a.getD i.toNat .gnil)
  else .error .panic

/-- Go's conversion `int64(key)` of a non-negative `float64` array key:
truncation toward zero.  For NaN, the infinities, and values beyond the
`int64` range the result is implementation-defined and the subsequent
index access faults on amd64; that is modelled as an immediate fault. -/
def numToGoIndex : NumV → Except GoFault Int
  | .fin q => if q.num.natAbs / q.den ≤ 2 ^ 63 - 1 then .ok (Rat.floor q) else .error .panic
  | _ => .error .panic

/-- `processIndex` (evaluator.go, line 220): mappings require a string key
(case-insensitive lookup, nil otherwise); arrays require a `float64` key
that is not negative (nil otherwise) and defer bounds handling to `GetAt`;
anything that is not a collection yields nil. -/
def processIndex (col : Value) (right : Value) : Except GoFault GoVal :=
  match col with
  | .vobj entries =>
    match right with
    | .vstr key => .ok (ciGet entries key)
    | _ => .ok .gnil
  | .varr xs =>
    match right with
    | .vnum key =>
      if numLt key (.fin 0) then .ok .gnil
      else do basicGetAt xs (← numToGoIndex key)
    | _ => .ok .gnil
  | .vfarr xs =>
    match right with
    | .vnum key =>
      if numLt key (.fin 0) then .ok .gnil
      else do filteredGetAt xs (← numToGoIndex key)
    | _ => .ok .gnil
  | _ => .ok .gnil

/-! ## The `case` built-in (part_001, `Case.Evaluate`)

Arguments reach the function as unevaluated nodes and are evaluated
lazily; an argument is therefore modelled as the outcome of its
evaluation, an `Except`. -/

/-- The condition/value scanning loop of `Case.Evaluate`: pairs are
scanned left to right; a condition that evaluates to a non-boolean is an
error; the value paired with the first truthy condition is evaluated and
returned; with no pairs left the final default argument is evaluated.
The empty case is unreachable, as the caller has checked the arity. -/
def caseLoop : List (Except String Value) → Except String Value
  | [d] => d
  | c :: v :: rest =>
    match c with
    | .error e => .error e
    | .ok cv =>
      if getKindV cv ≠ .boolean then
        .error "case function conditions must evaluate to boolean"
      else if isTruthy cv then v
      else caseLoop rest
  | [] => .error "case function requires an odd number of arguments"

/-- `Case.Evaluate` (part_001, line 170): an even number of arguments is
rejected, then the condition/value pairs are scanned. -/
def caseEvaluate (args : List (Except String Value)) : Except String Value :=
  if args.length % 2 == 0 then
    .error "case function requires an odd number of arguments"
  else caseLoop args

/-! ## C4: contains -/

lemma hasSubstr_characterization (hay needle : List Char) :
    hasSubstr hay needle = true ↔ needle <:+: hay := by
  induction hay with
  | nil =>
    simp [hasSubstr, List.isEmpty_iff]
  | cons a rest ih =>
    simp [hasSubstr, ih, List.infix_cons_iff]

/-- C4.  `contains` on an array is true iff some element is abstract-equal
to the needle; `contains` on two strings is true iff the ASCII-case-folded
needle is a substring of the ASCII-case-folded haystack. -/
theorem contains_characterization :
    (∀ (xs : List GoVal) (x : Value),
      containsEval (.varr xs) x = .vbool true ↔
        ∃ v ∈ xs, abstractEqual (convertToCanonicalValue v) x = true) ∧
    (∀ str y : String,
      containsEval (.vstr str) (.vstr y) = .vbool true ↔
        y.data.map foldChar <:+: str.data.map foldChar) := by
  constructor
  · intro xs x
    constructor
    · intro h
      have : (xs.any fun v => abstractEqual (convertToCanonicalValue v) x) = true := by
        simpa [containsEval] using h
      simpa using List.any_eq_true.mp this
    · intro ⟨v, hv, he⟩
      have : (xs.any fun v => abstractEqual (convertToCanonicalValue v) x) = true :=
        List.any_eq_true.mpr ⟨v, hv, he⟩
      simp [containsEval, this]
  · intro str y
    constructor
    · intro h
      have : hasSubstr (str.data.map foldChar) (y.data.map foldChar) = true := by
        simpa [containsEval, convertToStringV] using h
      exact (hasSubstr_characterization _ _).mp this
    · intro h
      simp [containsEval, convertToStringV, (hasSubstr_characterization _ _).mpr h]

/-! ## C5: named-value lookup -/

/-- C5 counterexample.  The claim says evaluation fails iff `Variables`
contains no entry for the name under case-insensitive lookup; but an entry
that stores a nil value also triggers `undefined variable`, because the Go
code tests the looked-up `interface{}` against nil. -/
theorem namedValue_errors_despite_entry :
    evalNamedValue [("a", .gnil)] "a" = .error "undefined variable a" ∧
      ([(("a" : String), GoVal.gnil)].any fun kv => strEqualFold kv.1 "a") = true := by
  exact ⟨rfl, rfl⟩

lemma ciGet_cons_pos {k : String} {v : GoVal} {rest name}
    (hm : strEqualFold k name = true) :
    ciGet ((k, v) :: rest) name = v := by
  simp [ciGet, hm]

lemma ciGet_cons_neg {k : String} {v : GoVal} {rest name}
    (hm : strEqualFold k name = false) :
    ciGet ((k, v) :: rest) name = ciGet rest name := by
  simp [ciGet, hm]

lemma evalNamedValue_error_iff {vars : List (String × GoVal)} {name : String} :
    evalNamedValue vars name = .error ("undefined variable " ++ name) ↔
      ciGet vars name = .gnil := by
  unfold evalNamedValue
  cases h : ciGet vars name <;> simp

lemma evalNamedValue_ok_of {vars : List (String × GoVal)} {name : String}
    {v : GoVal} (h : ciGet vars name = v) (hv : v ≠ .gnil) :
    evalNamedValue vars name = .ok (convertToCanonicalValue v) := by
  unfold evalNamedValue
  rw [h]
  cases v <;> simp_all

/-- C5 amended.  Under case-insensitive lookup with at most one matching
entry (Go map iteration order is unspecified, so several fold-equal keys
give an unspecified result), evaluation of a named value fails with
`undefined variable <name>` iff there is no entry for the name whose stored
value is non-nil; otherwise it returns the canonicalized stored value. -/
theorem evalNamedValue_characterization
    (vars : List (String × GoVal)) (name : String)
    (huniq : vars.countP (fun kv => strEqualFold kv.1 name) ≤ 1) :
    (evalNamedValue vars name = .error ("undefined variable " ++ name) ↔
      ¬∃ kv ∈ vars, strEqualFold kv.1 name = true ∧ kv.2 ≠ GoVal.gnil) ∧
    (∀ kv ∈ vars, strEqualFold kv.1 name = true → kv.2 ≠ GoVal.gnil →
      evalNamedValue vars name = .ok (convertToCanonicalValue kv.2)) := by
  induction vars with
  | nil => exact ⟨⟨fun _ => by simp, fun _ => rfl⟩, by simp⟩
  | cons p rest ih =>
    obtain ⟨k, v⟩ := p
    by_cases hm : strEqualFold k name = true
    · have hcount : rest.countP (fun kv => strEqualFold kv.1 name) = 0 := by
        simp only [List.countP_cons] at huniq
        simp only [hm, if_true] at huniq
        omega
      have hrest : ∀ kv' ∈ rest, strEqualFold kv'.1 name = false := by
        intro kv' hkv'
        have := List.countP_eq_zero.mp hcount kv' hkv'
        simpa using this
      have hget := @ciGet_cons_pos k v rest name hm
      constructor
      · rw [evalNamedValue_error_iff, hget]
        constructor
        · intro hv
          rintro ⟨kv', hkv', hfold, hnil⟩
          rcases List.mem_cons.mp hkv' with h | h
          · rw [h] at hnil
            exact hnil hv
          · exact absurd hfold (by simp [hrest kv' h])
        · intro hno
          by_contra hv
          exact hno ⟨(k, v), List.mem_cons_self _ _, hm, hv⟩
      · intro kv' hkv' hfold hnil
        rcases List.mem_cons.mp hkv' with h | h
        · rw [h]
          exact evalNamedValue_ok_of hget (by rw [h] at hnil; exact hnil)
        · exact absurd hfold (by simp [hrest kv' h])
    · have hmf : strEqualFold k name = false := by
        simpa using hm
      have hget := @ciGet_cons_neg k v rest name hmf
      have hcount : rest.countP (fun kv => strEqualFold kv.1 name) ≤ 1 := by
        simp only [List.countP_cons] at huniq
        omega
      obtain ⟨iha, ihb⟩ := ih hcount
      have heval : evalNamedValue ((k, v) :: rest) name = evalNamedValue rest name := by
        unfold evalNamedValue
        rw [hget]
      constructor
      · rw [heval, iha]
        constructor
        · rintro hno ⟨kv', hkv', hfold, hnil⟩
          rcases List.mem_cons.mp hkv' with h | h
          · rw [h] at hfold
            exact absurd hfold (by simp [hmf])
          · exact hno ⟨kv', h, hfold, hnil⟩
        · rintro hno ⟨kv', hkv', hfold, hnil⟩
          exact hno ⟨kv', List.mem_cons_of_mem _ hkv', hfold, hnil⟩
      · intro kv' hkv' hfold hnil
        rcases List.mem_cons.mp hkv' with h | h
        · rw [h] at hfold
          exact absurd hfold (by simp [hmf])
        · rw [heval]
          exact ihb kv' h hfold hnil

/-- Witness for the amended C5 statement at a concrete input: looking up
`a` among `[("A", "v")]` succeeds case-insensitively. -/
theorem evalNamedValue_characterization_witness :
    [(("A" : String), GoVal.gstr "v")].countP (fun kv => strEqualFold kv.1 "a") ≤ 1 ∧
      evalNamedValue [("A", .gstr "v")] "a" = .ok (.vstr "v") := by
  refine ⟨by decide, ?_⟩
  have h := evalNamedValue_characterization [("A", .gstr "v")] "a" (by decide)
  exact h.2 ("A", .gstr "v") (by simp) (by decide) (by simp)

/-! ## C6: index application -/

/-- C6.  `FilteredArray.GetAt` guards with `int(i) > len(a)` instead of
`>=`; indexing a filtered array at a position equal to its length therefore
faults (index out of range) instead of returning null, while the same
access on a basic array correctly returns null. -/
theorem processIndex_filteredArray_faults_at_length :
    processIndex (.vfarr [.gstr "x"]) (.vnum (.fin 1)) = .error .panic ∧
      processIndex (.varr [.gstr "x"]) (.vnum (.fin 1)) = .ok .gnil := by
  exact ⟨rfl, rfl⟩

/-! ## C7: the `case` built-in

The claim is about the errors raised by `case` itself, so argument nodes
are taken to evaluate successfully (`Except.ok`); an argument whose own
evaluation errors simply propagates that error. -/

/-- The condition/value pairs of a `case` argument list (the final odd
element is the default and belongs to no pair). -/
def casePairs : List Value → List (Value × Value)
  | c :: v :: rest => (c, v) :: casePairs rest
  | _ => []

/-- Declarative reading of the claim: scanning condition/value pairs left
to right, some condition reached before any truthy one is not a boolean. -/
def caseScansNonBool (vs : List Value) : Prop :=
  ∃ k, k < (casePairs vs).length ∧
    getKindV ((casePairs vs).getD k (.vnull, .vnull)).1 ≠ .boolean ∧
    ∀ j < k, getKindV ((casePairs vs).getD j (.vnull, .vnull)).1 = .boolean ∧
      isFalsy ((casePairs vs).getD j (.vnull, .vnull)).1 = true

/-- Declarative reading of the claim's result: the value paired with the
first truthy condition, or the final (default) argument. -/
def caseSpecResult (vs : List Value) : Value :=
  match (casePairs vs).find? (fun p => isTruthy p.1) with
  | some p => p.2
  | none => vs.getLastD .vnull

lemma caseScansNonBool_cons {a b : Value} {rest : List Value} :
    caseScansNonBool (a :: b :: rest) ↔
      getKindV a ≠ .boolean ∨
        (getKindV a = .boolean ∧ isFalsy a = true ∧ caseScansNonBool rest) := by
  have hp : casePairs (a :: b :: rest) = (a, b) :: casePairs rest := rfl
  constructor
  · rintro ⟨k, hk, hnb, hall⟩
    rw [hp] at hk hnb hall
    match k with
    | 0 => exact Or.inl (by simpa using hnb)
    | k' + 1 =>
      have h0 := hall 0 (Nat.succ_pos _)
      refine Or.inr ⟨by simpa using h0.1, by simpa using h0.2, k', by simpa using hk, by simpa using hnb, ?_⟩
      intro j hj
      have := hall (j + 1) (by omega)
      simpa using this
  · rintro (h | ⟨hb, hf, k', hk, hnb, hall⟩)
    · exact ⟨0, by rw [hp]; simp, by rw [hp]; simpa using h, by omega⟩
    · refine ⟨k' + 1, by rw [hp]; simpa using hk, by rw [hp]; simpa using hnb, ?_⟩
      intro j hj
      rw [hp]
      match j with
      | 0 => simpa using ⟨hb, hf⟩
      | j' + 1 =>
        have := hall j' (by omega)
        simpa using this

lemma caseScansNonBool_single {d : Value} : ¬caseScansNonBool [d] := by
  rintro ⟨k, hk, -⟩
  simp [casePairs] at hk

lemma getLastD_irrel {α : Type} {l : List α} (h : l ≠ []) (x y : α) :
    l.getLastD x = l.getLastD y := by
  cases l with
  | nil => exact absurd rfl h
  | cons a t => rfl

lemma caseLoop_characterization :
    ∀ vs : List Value, vs.length % 2 = 1 →
      ((∃ e, caseLoop (vs.map Except.ok) = .error e) ↔ caseScansNonBool vs) ∧
      (¬caseScansNonBool vs →
        caseLoop (vs.map Except.ok) = .ok (caseSpecResult vs))
  | [], h => by simp at h
  | [d], _ => by
    constructor
    · simp [caseLoop, caseScansNonBool, casePairs]
    · intro _
      simp [caseLoop, caseSpecResult, casePairs]
  | a :: b :: rest, h => by
    have hrest : rest.length % 2 = 1 := by
      simp only [List.length_cons] at h
      omega
    have ih := caseLoop_characterization rest hrest
    have hrestne : rest ≠ [] := by
      intro hx
      rw [hx] at hrest
      simp at hrest
    have hstep : caseLoop ((a :: b :: rest).map Except.ok) =
        if getKindV a ≠ .boolean then
          .error "case function conditions must evaluate to boolean"
        else if isTruthy a then .ok b
        else caseLoop (rest.map Except.ok) := by
      simp only [List.map_cons, caseLoop]
    by_cases ha : getKindV a = .boolean
    · by_cases ht : isTruthy a = true
      · have hloop : caseLoop ((a :: b :: rest).map Except.ok) = .ok b := by
          rw [hstep]
          simp [ha, ht]
        have hres : caseSpecResult (a :: b :: rest) = b := by
          unfold caseSpecResult
          have : casePairs (a :: b :: rest) = (a, b) :: casePairs rest := rfl
          rw [this, List.find?_cons_of_pos _ (by simpa using ht)]
        have hnotscan : ¬caseScansNonBool (a :: b :: rest) := by
          rw [caseScansNonBool_cons]
          rintro (hx | ⟨-, hf, -⟩)
          · exact hx ha
          · rw [isTruthy] at ht
            simp [hf] at ht
        constructor
        · rw [hloop]
          simp [hnotscan]
        · intro _
          rw [hloop, hres]
      · have hf : isFalsy a = true := by
          rw [isTruthy] at ht
          simpa using ht
        have hloop : caseLoop ((a :: b :: rest).map Except.ok) =
            caseLoop (rest.map Except.ok) := by
          rw [hstep]
          simp [ha, ht]
        have hres : caseSpecResult (a :: b :: rest) = caseSpecResult rest := by
          unfold caseSpecResult
          have hcp : casePairs (a :: b :: rest) = (a, b) :: casePairs rest := rfl
          rw [hcp, List.find?_cons_of_neg _ (by simpa using ht)]
          cases hfind : (casePairs rest).find? (fun p => isTruthy p.1) with
          | some p => rfl
          | none =>
            simp only []
            have : (a :: b :: rest).getLastD Value.vnull = rest.getLastD Value.vnull := by
              cases rest with
              | nil => exact absurd rfl hrestne
              | cons c t =>
                simp [List.getLastD_cons]
            rw [this]
        have hscan : caseScansNonBool (a :: b :: rest) ↔ caseScansNonBool rest := by
          rw [caseScansNonBool_cons]
          simp [ha, hf]
        constructor
        · rw [hloop, hscan]
          exact ih.1
        · intro hns
          rw [hloop, hres]
          exact ih.2 (by rw [hscan] at hns; exact hns)
    · have hloop : caseLoop ((a :: b :: rest).map Except.ok) =
          .error "case function conditions must evaluate to boolean" := by
        rw [hstep]
        simp [ha]
      have hscan : caseScansNonBool (a :: b :: rest) := by
        rw [caseScansNonBool_cons]
        exact Or.inl ha
      constructor
      · rw [hloop]
        simp [hscan]
      · intro hns
        exact absurd hscan hns

/-- C7.  With every argument node evaluating successfully, `case` fails
iff it was given an even number of arguments or some condition scanned
before the first truthy one is not a boolean; otherwise it returns the
value paired with the first truthy condition, or the final default. -/
theorem caseEvaluate_characterization (vs : List Value) :
    ((∃ e, caseEvaluate (vs.map Except.ok) = .error e) ↔
      vs.length % 2 = 0 ∨ caseScansNonBool vs) ∧
    (vs.length % 2 = 1 → ¬caseScansNonBool vs →
      caseEvaluate (vs.map Except.ok) = .ok (caseSpecResult vs)) := by
  unfold caseEvaluate
  by_cases hp : vs.length % 2 = 0
  · constructor
    · have hcond :
          ((vs.map (Except.ok : Value → Except String Value)).length % 2 == 0) = true := by
        simp [hp]
      rw [if_pos hcond]
      simp [hp]
    · intro h1 _
      omega
  · have h1 : vs.length % 2 = 1 := by omega
    obtain ⟨la, lb⟩ := caseLoop_characterization vs h1
    have hcond :
        ¬((vs.map (Except.ok : Value → Except String Value)).length % 2 == 0) = true := by
      simp [h1]
    rw [if_neg hcond]
    constructor
    · rw [la]
      exact ⟨Or.inr, fun hx => hx.resolve_left hp⟩
    · intro _ hns
      exact lb hns

/-- Witness for C7 at a concrete input: `case(false, 'a', 'b')` returns the
default `'b'`. -/
theorem caseEvaluate_characterization_witness :
    [Value.vbool false, Value.vstr "a", Value.vstr "b"].length % 2 = 1 ∧
      ¬caseScansNonBool [Value.vbool false, Value.vstr "a", Value.vstr "b"] ∧
      caseEvaluate ([Value.vbool false, Value.vstr "a", Value.vstr "b"].map Except.ok) =
        .ok (Value.vstr "b") := by
  have hns : ¬caseScansNonBool [Value.vbool false, Value.vstr "a", Value.vstr "b"] := by
    rw [caseScansNonBool_cons]
    rintro (hx | ⟨-, -, hs⟩)
    · exact hx rfl
    · exact caseScansNonBool_single hs
  refine ⟨by decide, hns, ?_⟩
  have h := (caseEvaluate_characterization
    [Value.vbool false, Value.vstr "a", Value.vstr "b"]).2 (by decide) hns
  rw [h]
  rfl

/-! ## C8: strategy expansion (src/internal/model/strategy_utils.go and
src/unnamed/part_003, `ExpandStrategy`)

`yaml.Node` trees are modelled by `YNode`; mapping keys are taken to be
scalar strings (the expander and `deepMapEquals` reject non-scalar keys,
a path the model's `YNode` cannot form).  Include/exclude matching uses
`nodesEqual` (strategy_utils.go line 189), which is `DeepEquals` of
src/internal/model/workflow_state_test.go (second document, line 430)
with `partialMatch` set: scalars decode and compare by abstract equality,
mappings compare their lower-cased key maps, sequences pointwise. -/

/-- A minimal model of a parsed YAML node. -/
inductive YNode where
  | scalar (value : String)
  | mapping (entries : List (String × YNode))
  | sequence (items : List YNode)
deriving BEq, Repr

/-- A matrix row: the model of `map[string]yaml.Node`. -/
abbrev MatrixRow : Type := List (String × YNode)

/-- Case-sensitive Go map lookup on a row. -/
def rowGet? (row : MatrixRow) (k : String) : Option YNode :=
  (row.find? (fun kv => kv.1 == k)).map (·.2)

/-- Go map store on a row: replace an existing key or append. -/
def rowSet (row : MatrixRow) (k : String) (v : YNode) : MatrixRow :=
  if row.any (fun kv => kv.1 == k) then
    row.map (fun kv => if kv.1 == k then (k, v) else kv)
  else row ++ [(k, v)]

mutual

/-- A computable size of a YAML node, used as recursion fuel for
`DeepEquals`: strictly larger than the nesting depth. -/
def ynodeSize : YNode → Nat
  | .scalar _ => 1
  | .mapping es => ynodeEntriesSize es + 1
  | .sequence xs => ynodeListSize xs + 1

/-- Combined size of sequence items. -/
def ynodeListSize : List YNode → Nat
  | [] => 1
  | x :: xs => ynodeSize x + ynodeListSize xs

/-- Combined size of mapping entries. -/
def ynodeEntriesSize : List (String × YNode) → Nat
  | [] => 1
  | (_, v) :: es => ynodeSize v + ynodeEntriesSize es

end

/-- `yaml.Node.Decode` into `interface{}` on a plain scalar, as invoked by
`scalarEquals`.  Modelled resolution: the YAML null and boolean spellings;
optionally signed decimal integers; unsigned `0x`/`0o` literals; the named
`.inf`/`.nan` forms; decimal floats via `goParseFloat` (whose `inf`/`nan`
spellings are then also accepted); everything else decodes as the string
itself.  Underscore separators, `0b` literals and sexagesimals are not
modelled — no claim depends on scalar decoding. -/
def yamlDecodeScalar (s : String) : GoVal :=
  if s = "" ∨ s = "~" ∨ s = "null" ∨ s = "Null" ∨ s = "NULL" then .gnil
  else if s = "true" ∨ s = "True" ∨ s = "TRUE" then .gbool true
  else if s = "false" ∨ s = "False" ∨ s = "FALSE" then .gbool false
  else
    let cs := s.data
    let intVal : Option ℚ :=
      match cs with
      | '-' :: t =>
        if t ≠ [] ∧ t.all isDigitCh then some (-(digitsToNat t : ℚ)) else none
      | '+' :: t =>
        if t ≠ [] ∧ t.all isDigitCh then some ((digitsToNat t : ℚ)) else none
      | t =>
        if t ≠ [] ∧ t.all isDigitCh then some ((digitsToNat t : ℚ)) else none
    match intVal with
    | some n => .gnum (.fin n)
    | none =>
      if s.length > 2 ∧ s.take 2 = "0x" then
        match parseBaseDigits hexDigitVal? 16 (cs.drop 2) with
        | some n => .gnum (.fin n)
        | none => .gstr s
      else if s.length > 2 ∧ s.take 2 = "0o" then
        match parseBaseDigits octDigitVal? 8 (cs.drop 2) with
        | some n => .gnum (.fin n)
        | none => .gstr s
      else if s = ".inf" ∨ s = "+.inf" then .gnum .posInf
      else if s = "-.inf" then .gnum .negInf
      else if s = ".nan" then .gnum .nan
      else
        match goParseFloat s with
        | some n => .gnum n
        | none => .gstr s

/-- `scalarEquals` (workflow_state_test.go): decode both scalars into
`interface{}`, canonicalize with `CreateIntermediateResult`, and compare
with `AbstractEqual` — case-insensitive on strings, coercing across
number/string and boolean/null, IEEE on numbers. -/
def scalarEquals (a b : String) : Bool :=
  abstractEqual (convertToCanonicalValue (yamlDecodeScalar a))
    (convertToCanonicalValue (yamlDecodeScalar b))

/-- `strings.ToLower`, on the ASCII subset covered by `foldChar`. -/
def strToLower (s : String) : String := String.mk (s.data.map foldChar)

/-- The lower-cased key map built by `deepMapEquals`
(`mapA[strings.ToLower(key)] = value`, later entries overwriting). -/
def buildLowerMap (entries : List (String × YNode)) : List (String × YNode) :=
  entries.foldl (fun m kv => rowSet m (strToLower kv.1) kv.2) []

/-- `DeepEquals` (src/internal/model/workflow_state_test.go, second
document, line 430), driven by fuel (one unit per nesting level of the
left node; `ynodeSize` always suffices, since every recursive call
descends into a value of the left node's mapping or sequence).  Scalars
compare by `scalarEquals`; mappings by their lower-cased key maps, the
left allowed extra keys when `partialMatch` is set; sequences pointwise
up to the right length, the left allowed extra items when `partialMatch`
is set; different kinds are never equal. -/
def deepEqualsFuel : Nat → Bool → YNode → YNode → Bool
  | 0, _, _, _ => false
  | fuel + 1, pm, a, b =>
    match a, b with
    | .scalar x, .scalar y => scalarEquals x y
    | .mapping ea, .mapping eb =>
      let mapA := buildLowerMap ea
      let mapB := buildLowerMap eb
      (if pm then decide (mapB.length ≤ mapA.length)
        else decide (mapA.length = mapB.length)) &&
      mapB.all fun kv =>
        match rowGet? mapA kv.1 with
        | some vA => deepEqualsFuel fuel pm vA kv.2
        | none => false
    | .sequence xa, .sequence xb =>
      (if pm then decide (xb.length ≤ xa.length)
        else decide (xa.length = xb.length)) &&
      (xa.zip xb).all fun p => deepEqualsFuel fuel pm p.1 p.2
    | _, _ => false

/-- `DeepEquals` at adequate fuel. -/
def DeepEquals (a b : YNode) (partialMatch : Bool) : Bool :=
  deepEqualsFuel (ynodeSize a) partialMatch a b

/-- `nodesEqual` (strategy_utils.go line 189): `DeepEquals` with
`partialMatch` set. -/
def nodesEqual (a b : YNode) : Bool := DeepEquals a b true

/-- `Strategy` (internal/model): the parsed `strategy:` section. -/
structure Strategy where
  matrix : List (String × List YNode)
  maxParallel : ℚ
  failFast : Bool

/-- `StrategyResult` (strategy_utils.go). -/
structure StrategyResult where
  flatMatrix : List MatrixRow
  includeMatrix : List MatrixRow
  failFast : Bool
  maxParallel : Option ℚ
  matrixKeys : List String

/-- The axis-expansion loop of `ExpandStrategy`: `include`/`exclude`
values are set aside; every other key Cartesian-extends the current rows.
Go iterates the matrix map in unspecified order; the list order stands in
for it (the claims proved below are order-independent). -/
def expandAxes :
    List (String × List YNode) →
      List MatrixRow × List YNode × List YNode →
      List MatrixRow × List YNode × List YNode
  | [], acc => acc
  | kv :: rest, (flat, inc, exc) =>
    if kv.1 = "include" then expandAxes rest (flat, kv.2, exc)
    else if kv.1 = "exclude" then expandAxes rest (flat, inc, kv.2)
    else
      expandAxes rest
        (flat.flatMap (fun row => kv.2.map (fun v => rowSet row kv.1 v)), inc, exc)

/-- Does a row match an exclude entry: every key/value of the entry is
present and equal in the row. -/
def rowMatchesExclude (row : MatrixRow) (entry : List (String × YNode)) : Bool :=
  entry.all fun kv =>
    match rowGet? row kv.1 with
    | some rv => nodesEqual rv kv.2
    | none => false

/-- `handleExclude` (strategy_utils.go): each exclude entry must be a
mapping; rows matching every key/value of an entry are dropped. -/
def handleExclude (exclude : List YNode) (flat : List MatrixRow) :
    Except String (List MatrixRow) :=
  exclude.foldlM
    (fun flat exNode =>
      match exNode with
      | .mapping exMap =>
        .ok (flat.filter (fun row => !rowMatchesExclude row exMap))
      | _ => .error "exclude entry is not a mapping node")
    flat

/-- Does a row match an include entry: every key shared with the row has
an equal value (keys missing from the row do not disqualify). -/
def rowMatchesInclude (row : MatrixRow) (entry : List (String × YNode)) : Bool :=
  entry.all fun kv =>
    match rowGet? row kv.1 with
    | some rv => nodesEqual rv kv.2
    | none => true

/-- Merge the keys of an include entry that are missing from a row. -/
def rowMergeMissing (row : MatrixRow) (entry : List (String × YNode)) : MatrixRow :=
  entry.foldl
    (fun row kv =>
      match rowGet? row kv.1 with
      | some _ => row
      | none => rowSet row kv.1 kv.2)
    row

/-- `handleInclude` (strategy_utils.go): each include entry must be a
mapping; entries matching some row merge their missing keys into every
matching row, entries matching no row are collected separately. -/
def handleInclude (incl : List YNode) (flat : List MatrixRow) :
    Except String (List MatrixRow × List MatrixRow) :=
  incl.foldlM
    (fun acc incNode =>
      match incNode with
      | .mapping incMap =>
        let (flat, incOnly) := acc
        if flat.any (fun row => rowMatchesInclude row incMap) then
          .ok (flat.map (fun row =>
            if rowMatchesInclude row incMap then rowMergeMissing row incMap
            else row), incOnly)
        else .ok (flat, incOnly ++ [incMap])
      | _ => .error "include entry is not a mapping node")
    (flat, [])

/-- `ExpandStrategy` (strategy_utils.go / part_003): a nil strategy gives
one empty row; otherwise the axes are expanded, excludes applied, an empty
result re-seeded with one empty row, the 256-row limit enforced, the key
set captured from the first row, and includes applied. -/
def ExpandStrategy (strategy : Option Strategy) : Except String StrategyResult :=
  match strategy with
  | none =>
    .ok ⟨[[]], [], true, none, []⟩
  | some st => do
    let (flat0, incl, exclude) := expandAxes st.matrix ([[]], [], [])
    let flat1 ← handleExclude exclude flat0
    let flat2 := if flat1.isEmpty then [([] : MatrixRow)] else flat1
    if flat2.length > 256 then
      throw "matrix contains more than 256 entries"
    else do
      let matrixKeys := (flat2.headD []).map (·.1)
      let (flat3, incOnly) ← handleInclude incl flat2
      .ok ⟨flat3, incOnly, st.failFast, some st.maxParallel, matrixKeys⟩

lemma expandAxes_pure (m : List (String × List YNode))
    (hkeys : ∀ kv ∈ m, kv.1 ≠ "include" ∧ kv.1 ≠ "exclude") :
    ∀ flat inc exc,
      expandAxes m (flat, inc, exc) =
        (m.foldl
          (fun flat kv => flat.flatMap fun row => kv.2.map fun v => rowSet row kv.1 v)
          flat, inc, exc) := by
  induction m with
  | nil => intro flat inc exc; rfl
  | cons kv rest ih =>
    intro flat inc exc
    have hk := hkeys kv (List.mem_cons_self _ _)
    have ihk : ∀ kv' ∈ rest, kv'.1 ≠ "include" ∧ kv'.1 ≠ "exclude" := by
      intro kv' h
      exact hkeys kv' (List.mem_cons_of_mem _ h)
    simp only [expandAxes, if_neg hk.1, if_neg hk.2, List.foldl_cons]
    exact ih ihk _ _ _

lemma length_flatMap_rowSet (flat : List MatrixRow) (k : String) (vs : List YNode) :
    (flat.flatMap fun row => vs.map fun v => rowSet row k v).length =
      flat.length * vs.length := by
  induction flat with
  | nil => simp
  | cons row rest ih =>
    simp [List.flatMap_cons, ih, Nat.succ_mul, Nat.add_comm]

lemma expandAxes_length (m : List (String × List YNode))
    (hkeys : ∀ kv ∈ m, kv.1 ≠ "include" ∧ kv.1 ≠ "exclude") :
    ∀ flat : List MatrixRow,
      (m.foldl
        (fun flat kv => flat.flatMap fun row => kv.2.map fun v => rowSet row kv.1 v)
        flat).length = flat.length * (m.map (fun kv => kv.2.length)).prod := by
  induction m with
  | nil => intro flat; simp
  | cons kv rest ih =>
    intro flat
    have ihk : ∀ kv' ∈ rest, kv'.1 ≠ "include" ∧ kv'.1 ≠ "exclude" := by
      intro kv' h
      exact hkeys kv' (List.mem_cons_of_mem _ h)
    simp only [List.foldl_cons, List.map_cons, List.prod_cons]
    rw [ih ihk, length_flatMap_rowSet]
    ring

lemma one_le_prod_of_pos {l : List Nat} (h : ∀ x ∈ l, 1 ≤ x) : 1 ≤ l.prod := by
  induction l with
  | nil => simp
  | cons a rest ih =>
    simp only [List.prod_cons]
    have ha := h a (List.mem_cons_self _ _)
    have hr := ih (fun x hx => h x (List.mem_cons_of_mem _ hx))
    exact Nat.one_le_iff_ne_zero.mpr (Nat.mul_ne_zero (by omega) (by omega))

/-- C8 amended.  For a matrix whose keys are all axes (no include/exclude),
each with at least one value and with the size product at most 256,
expansion succeeds and produces exactly the product many rows.  (With an
empty axis the row set collapses and is re-seeded to a single empty row,
and past 256 rows expansion fails — see the counterexample.) -/
theorem expandStrategy_product (m : List (String × List YNode)) (mp : ℚ) (ff : Bool)
    (hkeys : ∀ kv ∈ m, kv.1 ≠ "include" ∧ kv.1 ≠ "exclude")
    (hpos : ∀ kv ∈ m, 1 ≤ kv.2.length)
    (hbound : (m.map (fun kv => kv.2.length)).prod ≤ 256) :
    ∃ res, ExpandStrategy (some ⟨m, mp, ff⟩) = .ok res ∧
      res.flatMatrix.length = (m.map (fun kv => kv.2.length)).prod := by
  have hax := expandAxes_pure m hkeys [[]] [] []
  have hlen := expandAxes_length m hkeys [[]]
  set flat0 := m.foldl
    (fun flat kv => flat.flatMap fun row => kv.2.map fun v => rowSet row kv.1 v)
    [[]] with hflat0
  have hlen0 : flat0.length = (m.map (fun kv => kv.2.length)).prod := by
    rw [hlen]
    simp
  have hpos0 : 1 ≤ flat0.length := by
    rw [hlen0]
    exact one_le_prod_of_pos (by
      intro x hx
      obtain ⟨kv, hkv, hkx⟩ := List.mem_map.mp hx
      exact hkx ▸ hpos kv hkv)
  have hne : flat0.isEmpty = false := by
    cases hf : flat0 with
    | nil => rw [hf] at hpos0; simp at hpos0
    | cons a t => simp [hf]
  have hnotover : ¬flat0.length > 256 := by
    rw [hlen0]
    omega
  refine ⟨⟨flat0, [], ff, some mp, (flat0.headD []).map (·.1)⟩, ?_,
    by simpa using hlen0⟩
  unfold ExpandStrategy
  simp only [hax]
  simp [handleExclude, handleInclude, hne, hnotover]

/-- C8 counterexample.  A matrix with a single axis whose value list is
empty: the claim requires the expanded row count to equal the product
(which is 0), but expansion re-seeds the empty row set and returns one
empty row. -/
theorem expandStrategy_empty_axis_not_product :
    ∃ res, ExpandStrategy (some ⟨[("a", [])], 0, true⟩) = .ok res ∧
      res.flatMatrix.length = 1 ∧
      (([("a", ([] : List YNode))]).map (fun kv => kv.2.length)).prod = 0 := by
  exact ⟨⟨[[]], [], true, some 0, []⟩, rfl, rfl, rfl⟩

/-- Witness for the amended C8 statement at a concrete input: a 2×2 matrix
expands to 4 rows. -/
theorem expandStrategy_product_witness :
    ∃ res,
      ExpandStrategy (some ⟨[("l", [.scalar "a", .scalar "b"]),
        ("f", [.scalar "x", .scalar "y"])], 0, true⟩) = .ok res ∧
      res.flatMatrix.length = 4 := by
  obtain ⟨res, h1, h2⟩ := expandStrategy_product
    [("l", [.scalar "a", .scalar "b"]), ("f", [.scalar "x", .scalar "y"])] 0 true
    (by
      intro kv hkv
      simp only [List.mem_cons, List.not_mem_nil, or_false] at hkv
      rcases hkv with h | h <;> subst h <;> exact ⟨by decide, by decide⟩)
    (by
      intro kv hkv
      simp only [List.mem_cons, List.not_mem_nil, or_false] at hkv
      rcases hkv with h | h <;> subst h <;> decide)
    (by decide)
  exact ⟨res, h1, h2.trans (by decide)⟩

/-! ## C9: the template rewriter

The implementation of `rewriteSubExpression` is not under src/ — only its
tests (src/unnamed/part_003) and its caller
(src/internal/templateeval/evaluate.go) are — so it is modelled from the
spec, §4.6. -/

/-- The scanning mode of the template scanner: inside literal text, or
inside a `${{ … }}` segment (tracking single-quote state). -/
inductive ScanMode where
  | lit
  | expr (inQuote : Bool)
deriving DecidableEq, Repr

/-- Modelled from the spec: the scanning step of `rewriteSubExpression`
(§4.6, steps 1–2): find each `${{`, scan to the matching `}}` respecting
single-quoted strings (a doubled `''` toggles twice and so stays inside),
and collect the literal pieces and expression bodies.  An exhausted input
inside a quote is "unclosed string", inside an expression "unclosed
expression". -/
def scanTemplateAux :
    List Char → ScanMode → List Char → List String → List String →
      Except String (List String × List String)
  | [], .lit, acc, lits, exprs => .ok (lits ++ [String.mk acc], exprs)
  | [], .expr true, _, _, _ => .error "unclosed string"
  | [], .expr false, _, _, _ => .error "unclosed expression"
  | '$' :: '{' :: '{' :: rest, .lit, acc, lits, exprs =>
    scanTemplateAux rest (.expr false) [] (lits ++ [String.mk acc]) exprs
  | '}' :: '}' :: rest, .expr false, acc, lits, exprs =>
    scanTemplateAux rest .lit [] lits (exprs ++ [String.mk acc])
  | '\'' :: rest, .expr inQ, acc, lits, exprs =>
    scanTemplateAux rest (.expr (!inQ)) (acc ++ ['\'']) lits exprs
  | c :: rest, mode, acc, lits, exprs =>
    scanTemplateAux rest mode (acc ++ [c]) lits exprs

/-- Modelled from the spec: scan a literal string into literal pieces and
expression bodies; `lits.length = exprs.length + 1` on success. -/
def scanTemplate (s : String) : Except String (List String × List String) :=
  scanTemplateAux s.data .lit [] [] []

/-- Modelled from the spec (§4.6, step 5): `''`-escape a literal piece for
inclusion in the `format` string. -/
def escapeFormatLiteral (s : String) : String :=
  String.mk (s.data.flatMap fun c => if c = '\'' then ['\'', '\''] else [c])

/-- ASCII whitespace trimming of an expression body (Go `strings.TrimSpace`
restricted to ASCII space characters). -/
def isSpaceCh (c : Char) : Bool := c = ' ' ∨ c = '\t' ∨ c = '\n' ∨ c = '\r'

/-- Trim leading and trailing whitespace. -/
def trimChars (s : String) : String :=
  String.mk (((s.data.dropWhile isSpaceCh).reverse.dropWhile isSpaceCh).reverse)

/-- The `{i}` slots interleaved with the remaining literal pieces. -/
def formatSlots : Nat → List String → String
  | _, [] => ""
  | i, l :: rest =>
    "\x7b" ++ toString i ++ "\x7d" ++ escapeFormatLiteral l ++ formatSlots (i + 1) rest

/-- Modelled from the spec (§4.6, step 5): assemble
`format('…{0}…{1}…', expr0, expr1, …)`. -/
def buildFormatCall (lits exprs : List String) : String :=
  "format('" ++ escapeFormatLiteral (lits.headD "") ++ formatSlots 0 lits.tail ++
    "', " ++ String.intercalate ", " (exprs.map trimChars) ++ ")"

/-- Modelled from the spec: the decision step of `rewriteSubExpression`
(§4.6, steps 3–5).  No expression gives the original string with
`isExpression = false`; exactly one expression with no surrounding literal
text and `forceFormat` unset returns the expression body directly;
otherwise the `format(…)` call is emitted. -/
def rewriteFromParts (s : String) (forceFormat : Bool)
    (lits exprs : List String) : Except String (String × Bool) :=
  if exprs.isEmpty then .ok (s, false)
  else if exprs.length = 1 ∧ (lits.all fun l => l = "") = true ∧ forceFormat = false then
    .ok (trimChars (exprs.headD ""), true)
  else
    .ok (buildFormatCall lits exprs, true)

/-- Modelled from the spec: `rewriteSubExpression(s, forceFormat)` (§4.6;
the implementation is not under src/): scan, then decide. -/
def rewriteSubExpression (s : String) (forceFormat : Bool) :
    Except String (String × Bool) :=
  match scanTemplate s with
  | .error e => .error e
  | .ok (lits, exprs) => rewriteFromParts s forceFormat lits exprs

/-- C9.  When the input contains at least one `${{ … }}` segment and at
least one literal character outside all segments, the `forceFormat` flag is
irrelevant: both calls return the same `format(…)` rewriting and both
report `isExpression = true`. -/
theorem rewriteSubExpression_forceFormat_irrelevant (s : String)
    (lits exprs : List String)
    (hscan : scanTemplate s = .ok (lits, exprs))
    (hex : exprs ≠ [])
    (hlit : ∃ l ∈ lits, l ≠ "") :
    rewriteSubExpression s false = rewriteSubExpression s true ∧
      rewriteSubExpression s false = .ok (buildFormatCall lits exprs, true) := by
  have hemp : ¬exprs.isEmpty = true := by
    cases exprs with
    | nil => exact absurd rfl hex
    | cons a t => simp
  have hall : (lits.all fun l => l = "") = false := by
    obtain ⟨l, hl, hne⟩ := hlit
    cases h : lits.all fun l => l = ""
    · rfl
    · exact absurd (by simpa using List.all_eq_true.mp h l hl) hne
  have hcond : ∀ ff : Bool,
      ¬(exprs.length = 1 ∧ (lits.all fun l => l = "") = true ∧ ff = false) := by
    rintro ff ⟨-, h2, -⟩
    rw [hall] at h2
    exact Bool.false_ne_true h2
  have hrun : ∀ ff : Bool,
      rewriteSubExpression s ff = .ok (buildFormatCall lits exprs, true) := by
    intro ff
    have hred : rewriteSubExpression s ff = rewriteFromParts s ff lits exprs := by
      unfold rewriteSubExpression
      rw [hscan]
    rw [hred]
    unfold rewriteFromParts
    rw [if_neg hemp, if_neg (hcond ff)]
  rw [hrun false, hrun true]
  exact ⟨rfl, rfl⟩

/-- Concrete validation of the spec model against the repository's own
test expectations (part_003): `"Hello $\x7b\x7b 'world' \x7d\x7d"` rewrites to
`format('Hello {0}', 'world')` under both flags. -/
theorem rewriteSubExpression_test_example :
    rewriteSubExpression "Hello $\x7b\x7b 'world' \x7d\x7d" false =
      .ok ("format('Hello \x7b0\x7d', 'world')", true) ∧
    rewriteSubExpression "Hello $\x7b\x7b 'world' \x7d\x7d" true =
      .ok ("format('Hello \x7b0\x7d', 'world')", true) ∧
    rewriteSubExpression "Hello $\x7b\x7b 'world' " false = .error "unclosed expression" := by
  refine ⟨rfl, rfl, rfl⟩

/-- Witness for C9 at a concrete input. -/
theorem rewriteSubExpression_forceFormat_irrelevant_witness :
    scanTemplate "Hello $\x7b\x7b 'world' \x7d\x7d" = .ok (["Hello ", ""], [" 'world' "]) ∧
      rewriteSubExpression "Hello $\x7b\x7b 'world' \x7d\x7d" false =
        rewriteSubExpression "Hello $\x7b\x7b 'world' \x7d\x7d" true := by
  have hscan : scanTemplate "Hello $\x7b\x7b 'world' \x7d\x7d" =
      .ok (["Hello ", ""], [" 'world' "]) := rfl
  refine ⟨hscan, ?_⟩
  have h := rewriteSubExpression_forceFormat_irrelevant "Hello $\x7b\x7b 'world' \x7d\x7d"
    ["Hello ", ""] [" 'world' "] hscan (by simp)
    ⟨"Hello ", by simp, by simp⟩
  exact h.1

/-! ## C10: schema expression scanning (src/pkg/schema/schema.go)

`checkExpression` drives `exprparser.Parse` and
`Node.checkSingleExpression` on each extracted expression body; those two
are abstracted as error oracles here — the property below holds for every
oracle because the fault occurs before either is consulted. -/

/-- `exprEnd` (schema.go line 299): index of the first `}}` outside
single quotes, or -1.  Go iterates byte indices; on the inputs considered
here (ASCII) character indices coincide. -/
def exprEndAux : List Char → Bool → Nat → Int
  | [], _, _ => -1
  | '\'' :: rest, inQ, i => exprEndAux rest (!inQ) (i + 1)
  | '}' :: '}' :: _, false, i => i
  | _ :: rest, inQ, i => exprEndAux rest inQ (i + 1)

/-- `exprEnd` (schema.go line 299). -/
def exprEnd (cs : List Char) : Int := exprEndAux cs false 0

/-- Skip to just past the first occurrence of `${{`
(`strings.Index(val, "${{")` followed by `val = val[i+3:]`). -/
def dropThroughExprOpen : List Char → Option (List Char)
  | [] => none
  | c :: rest =>
    if c = '$' ∧ rest.take 2 = ['{', '{'] then some (rest.drop 2)
    else dropThroughExprOpen rest

lemma dropThroughExprOpen_length :
    ∀ (cs : List Char), ∀ rest, dropThroughExprOpen cs = some rest →
      rest.length < cs.length := by
  intro cs
  induction cs with
  | nil => simp [dropThroughExprOpen]
  | cons c cs' ih =>
    intro rest h
    simp only [dropThroughExprOpen] at h
    split at h
    · cases h
      simp only [List.length_drop, List.length_cons]
      omega
    · have := ih rest h
      simp only [List.length_cons]
      omega

/-- `Node.checkExpression` (schema.go line 311), with
`exprparser.Parse` and `checkSingleExpression` abstracted as error oracles
(`none` meaning success).  Each iteration finds the next `${{`, computes
`j := exprEnd(val)` and evaluates `val[:j]` — which, when no closing `}}`
exists and `j` is -1, is a slice with negative bound and panics.  A parse
error appends a schema error and rescans the same remainder; otherwise the
body is checked and scanning resumes after the `}}`. -/
def checkExpressionLoop (parseErr checkErr : String → Option String) :
    List Char → Bool → List String → Except GoFault (Bool × List String)
  | cs, hadExpr, errs =>
    match hfind : dropThroughExprOpen cs with
    | none => .ok (hadExpr, errs)
    | some rest =>
      let j := exprEnd rest
      if j < 0 then .error .panic
      else
        let body := String.mk (rest.take j.toNat)
        match parseErr body with
        | some pe =>
          checkExpressionLoop parseErr checkErr rest true
            (errs ++ ["failed to parse: " ++ pe])
        | none =>
          let rest' := rest.drop (j.toNat + 2)
          match checkErr body with
          | some ce => checkExpressionLoop parseErr checkErr rest' true (errs ++ [ce])
          | none => checkExpressionLoop parseErr checkErr rest' true errs
termination_by cs => cs.length
decreasing_by
  · exact dropThroughExprOpen_length cs rest hfind
  · have h1 := dropThroughExprOpen_length cs rest hfind
    simp only [List.length_drop]
    omega
  · have h1 := dropThroughExprOpen_length cs rest hfind
    simp only [List.length_drop]
    omega

/-- `Node.checkExpression` (schema.go line 311): the `RestrictEval` early
return, then the scanning loop over the scalar's text. -/
def checkExpression (restrictEval : Bool) (parseErr checkErr : String → Option String)
    (val : String) : Except GoFault (Bool × List String) :=
  if restrictEval then .ok (false, [])
  else checkExpressionLoop parseErr checkErr val.data false []

/-- C10.  Schema validation of a scalar is not total: on a scalar that
contains `${{` with no matching `}}`, `exprEnd` returns -1 and
`checkExpression` evaluates `val[:-1]`, a slice with negative bound, which
panics — for every parse/check oracle, since the fault occurs before either
is consulted.  A well-closed scalar returns normally, for contrast. -/
theorem checkExpression_unclosed_faults (parseErr checkErr : String → Option String) :
    checkExpression false parseErr checkErr "$\x7b\x7b x" = .error .panic ∧
      checkExpression false (fun _ => none) (fun _ => none) "$\x7b\x7b x \x7d\x7d y" =
        .ok (true, []) := by
  constructor
  · show checkExpressionLoop parseErr checkErr ("$\x7b\x7b x".data) false [] = .error .panic
    rw [checkExpressionLoop.eq_def]
    rfl
  · show checkExpressionLoop (fun _ => none) (fun _ => none) ("$\x7b\x7b x \x7d\x7d y".data) false [] =
      .ok (true, [])
    rw [checkExpressionLoop.eq_def]
    show checkExpressionLoop (fun _ => none) (fun _ => none) [' ', 'y'] true [] =
      Except.ok (true, [])
    rw [checkExpressionLoop.eq_def]
    rfl

/-! ## JSON serialization (encoding/json, as used by the `toJson` and
`fromJson` built-ins in part_001)

`ToRaw` materializes results into plain Go values, and
`json.MarshalIndent(raw, "", "  ")` serializes them: strings are escaped
(with HTML escaping, the `json.Marshal` default), finite doubles print
their decimal value, NaN and the infinities are unsupported values
(marshalling errors), and map keys are SORTED byte-wise — Go maps have no
insertion order and the encoder sorts keys at every level.  The nested
recursion over `GoVal` is driven by an explicit fuel parameter; `sizeOf`
of the value always suffices, since one unit of fuel is spent per nesting
level. -/

/-- `Evaluator.ToRaw` (evaluator.go line 59): materialize a canonical
result into plain Go values.  The Go code rebuilds containers as
`map[string]interface{}` / `[]interface{}`; in this model container
elements are already raw, so only the outer layer changes (a
`FilteredArray` becomes a plain array). -/
def toRawV : Value → GoVal
  | .vnull => .gnil
  | .vbool b => .gbool b
  | .vnum n => .gnum n
  | .vstr s => .gstr s
  | .varr xs => .garr xs
  | .vfarr xs => .garr xs
  | .vobj es => .gobj es

/-- Lower-case hexadecimal digit. -/
def hexDigitChar (n : Nat) : Char :=
  if n < 10 then Char.ofNat (48 + n) else Char.ofNat (87 + n)

/-- Four lower-case hex digits of a codepoint below 0x10000. -/
def encodeHex4 (n : Nat) : List Char :=
  [hexDigitChar (n / 4096 % 16), hexDigitChar (n / 256 % 16),
    hexDigitChar (n / 16 % 16), hexDigitChar (n % 16)]

/-- One character of Go's JSON string encoder (`encoding/json`, with HTML
escaping on, the `json.Marshal` default): quote and backslash escaped;
newline, carriage return and tab named; other control characters,
`<`/`>`/`&`, and U+2028/U+2029 as `\u` escapes; everything else
verbatim. -/
def escapeJSONChar (c : Char) : List Char :=
  if c = '"' then ['\\', '"']
  else if c = '\\' then ['\\', '\\']
  else if c = '\n' then ['\\', 'n']
  else if c = '\r' then ['\\', 'r']
  else if c = '\t' then ['\\', 't']
  else if c.toNat < 32 ∨ c = '<' ∨ c = '>' ∨ c = '&' ∨
      c.toNat = 8232 ∨ c.toNat = 8233 then
    '\\' :: 'u' :: encodeHex4 c.toNat
  else [c]

/-- Go's JSON string encoding of a string, quotes included. -/
def encodeJSONString (s : String) : String :=
  String.mk ('"' :: s.data.flatMap escapeJSONChar ++ ['"'])

/-- The indentation prefix at nesting depth `d` for
`MarshalIndent(raw, "", "  ")`. -/
def indentStr (d : Nat) : String := String.mk (List.replicate (2 * d) ' ')

/-- Insert an entry into a key-sorted entry list, before the first entry
whose key is not smaller. -/
def insertSortedEntry (kv : String × GoVal) :
    List (String × GoVal) → List (String × GoVal)
  | [] => [kv]
  | e :: es =>
    if strCompareLt e.1 kv.1 then e :: insertSortedEntry kv es
    else kv :: e :: es

/-- Sort object entries by byte-wise key order (Go's encoder sorts the
keys of every map it encodes; insertion sort here — keys of a Go map are
unique, so any sort gives the same list). -/
def sortEntries : List (String × GoVal) → List (String × GoVal)
  | [] => []
  | kv :: es => insertSortedEntry kv (sortEntries es)

/-- `json.MarshalIndent(v, "", "  ")` on a plain Go value, driven by
fuel (one unit per nesting level; `goValSize` always suffices); `none` is
a marshalling error (fuel exhaustion, or an unsupported value: NaN, an
infinity, or a non-decimal rational, which no double is). -/
def marshalGo : Nat → GoVal → Nat → Option String
  | 0, _, _ => none
  | fuel + 1, v, d =>
    match v with
    | .gnil => some "null"
    | .gbool b => some (if b then "true" else "false")
    | .gnum n =>
      match n with
      | .fin q => ratDecimalString q
      | _ => none
    | .gstr s => some (encodeJSONString s)
    | .garr [] => some "[]"
    | .garr (x :: xs) => do
      let parts ← (x :: xs).mapM fun el => marshalGo fuel el (d + 1)
      some ("[\n" ++ String.intercalate ",\n"
        (parts.map fun p => indentStr (d + 1) ++ p) ++ "\n" ++ indentStr d ++ "]")
    | .gobj [] => some "\x7b\x7d"
    | .gobj (e :: es) => do
      let parts ← (sortEntries (e :: es)).mapM fun kv =>
        (marshalGo fuel kv.2 (d + 1)).map fun str =>
          indentStr (d + 1) ++ encodeJSONString kv.1 ++ ": " ++ str
      some ("\x7b\n" ++ String.intercalate ",\n" parts ++ "\n" ++ indentStr d ++ "\x7d")

/-- The serialization the claim describes, written from the spec's words:
identical stable, indented rendering, but emitting object entries in the
order in which they occur (insertion order), with no sorting. -/
def jsonRenderInsertion : Nat → GoVal → Nat → Option String
  | 0, _, _ => none
  | fuel + 1, v, d =>
    match v with
    | .gnil => some "null"
    | .gbool b => some (if b then "true" else "false")
    | .gnum n =>
      match n with
      | .fin q => ratDecimalString q
      | _ => none
    | .gstr s => some (encodeJSONString s)
    | .garr [] => some "[]"
    | .garr (x :: xs) => do
      let parts ← (x :: xs).mapM fun el => jsonRenderInsertion fuel el (d + 1)
      some ("[\n" ++ String.intercalate ",\n"
        (parts.map fun p => indentStr (d + 1) ++ p) ++ "\n" ++ indentStr d ++ "]")
    | .gobj [] => some "\x7b\x7d"
    | .gobj (e :: es) => do
      let parts ← (e :: es).mapM fun kv =>
        (jsonRenderInsertion fuel kv.2 (d + 1)).map fun str =>
          indentStr (d + 1) ++ encodeJSONString kv.1 ++ ": " ++ str
      some ("\x7b\n" ++ String.intercalate ",\n" parts ++ "\n" ++ indentStr d ++ "\x7d")

/-- Sort the object entries of a value recursively (deeply) by key:
rendering the result in insertion order is what Go's sorting encoder
produces. -/
def sortDeepGo : Nat → GoVal → GoVal
  | 0, v => v
  | fuel + 1, .garr xs => .garr (xs.map fun x => sortDeepGo fuel x)
  | fuel + 1, .gobj es =>
    .gobj ((sortEntries es).map fun kv => (kv.1, sortDeepGo fuel kv.2))
  | _ + 1, v => v

mutual

/-- A computable size of a Go value, used as marshalling fuel: strictly
larger than the nesting depth. -/
def goValSize : GoVal → Nat
  | .garr xs => goValListSize xs + 1
  | .gobj es => goValEntriesSize es + 1
  | _ => 1

/-- Combined size of array elements. -/
def goValListSize : List GoVal → Nat
  | [] => 1
  | x :: xs => goValSize x + goValListSize xs

/-- Combined size of object entries. -/
def goValEntriesSize : List (String × GoVal) → Nat
  | [] => 1
  | (_, v) :: es => goValSize v + goValEntriesSize es

end

/-- `ToJSON.Evaluate` (part_001 line 31) on an already evaluated result:
`ToRaw` then `MarshalIndent`.  `goValSize` of the raw value is always
enough fuel. -/
def toJsonFn (r : Value) : Except String String :=
  match marshalGo (goValSize (toRawV r)) (toRawV r) 0 with
  | some s => .ok s
  | none => .error "json: unsupported value"

/-! ## JSON parsing (`json.Unmarshal` into `interface{}`) -/

/-- JSON insignificant whitespace. -/
def isJSONWs (c : Char) : Bool := c = ' ' ∨ c = '\t' ∨ c = '\n' ∨ c = '\r'

/-- Skip insignificant whitespace. -/
def jsonSkipWs (cs : List Char) : List Char := cs.dropWhile isJSONWs

/-- The named single-character escapes of JSON (`\"`, `\\`, `\/`, `\b`,
`\f`, `\n`, `\r`, `\t`). -/
def unescapeJSONChar (e : Char) : Option Char :=
  if e = '"' then some '"'
  else if e = '\\' then some '\\'
  else if e = '/' then some '/'
  else if e = 'b' then some (Char.ofNat 8)
  else if e = 'f' then some (Char.ofNat 12)
  else if e = 'n' then some '\n'
  else if e = 'r' then some '\r'
  else if e = 't' then some '\t'
  else none

/-- The body of a JSON string after the opening quote: decoded characters
and the remainder after the closing quote.  Handles the named escapes and
`\uXXXX` (surrogate pairing is not modelled — the encoder above never
emits surrogates). -/
def parseJSONStringBody : List Char → Option (List Char × List Char)
  | [] => none
  | c :: rest =>
    if c = '"' then some ([], rest)
    else if c = '\\' then
      match rest with
      | 'u' :: h1 :: h2 :: h3 :: h4 :: r => do
        let d1 ← hexDigitVal? h1
        let d2 ← hexDigitVal? h2
        let d3 ← hexDigitVal? h3
        let d4 ← hexDigitVal? h4
        let p ← parseJSONStringBody r
        some (Char.ofNat (((d1 * 16 + d2) * 16 + d3) * 16 + d4) :: p.1, p.2)
      | e :: r =>
        match unescapeJSONChar e with
        | some ec => (parseJSONStringBody r).map fun p => (ec :: p.1, p.2)
        | none => none
      | [] => none
    else (parseJSONStringBody rest).map fun p => (c :: p.1, p.2)

/-- The optional exponent part of a JSON number. -/
def parseExpPart : List Char → Option (Int × List Char)
  | 'e' :: '-' :: rest =>
    let ds := rest.takeWhile isDigitCh
    if ds = [] then none else some (-(digitsToNat ds : Int), rest.dropWhile isDigitCh)
  | 'e' :: '+' :: rest =>
    let ds := rest.takeWhile isDigitCh
    if ds = [] then none else some ((digitsToNat ds : Int), rest.dropWhile isDigitCh)
  | 'e' :: rest =>
    let ds := rest.takeWhile isDigitCh
    if ds = [] then none else some ((digitsToNat ds : Int), rest.dropWhile isDigitCh)
  | 'E' :: '-' :: rest =>
    let ds := rest.takeWhile isDigitCh
    if ds = [] then none else some (-(digitsToNat ds : Int), rest.dropWhile isDigitCh)
  | 'E' :: '+' :: rest =>
    let ds := rest.takeWhile isDigitCh
    if ds = [] then none else some ((digitsToNat ds : Int), rest.dropWhile isDigitCh)
  | 'E' :: rest =>
    let ds := rest.takeWhile isDigitCh
    if ds = [] then none else some ((digitsToNat ds : Int), rest.dropWhile isDigitCh)
  | cs => some (0, cs)

/-- A JSON number per the JSON grammar (optional minus; integer part
without redundant leading zeros; optional fraction; optional exponent),
decoded exactly into a rational (`json.Unmarshal` produces the nearest
`float64`; exactness is the modelling convention for doubles here). -/
def parseJSONNumber (cs : List Char) : Option (GoVal × List Char) :=
  let neg := cs.headD ' ' == '-'
  let sign : ℚ := if neg then -1 else 1
  let cs1 := if neg then cs.tail else cs
  let int := cs1.takeWhile isDigitCh
  let cs2 := cs1.dropWhile isDigitCh
  if int = [] then none
  else if 1 < int.length ∧ int.headD '0' = '0' then none
  else
    match cs2 with
    | '.' :: t =>
      let frac := t.takeWhile isDigitCh
      let cs3 := t.dropWhile isDigitCh
      if frac = [] then none
      else
        match parseExpPart cs3 with
        | none => none
        | some (e, cs4) =>
          some (.gnum (.fin (sign * ((digitsToNat (int ++ frac) : ℚ) /
            (10 : ℚ) ^ frac.length) * (10 : ℚ) ^ e)), cs4)
    | _ =>
      match parseExpPart cs2 with
      | none => none
      | some (e, cs4) =>
        some (.gnum (.fin (sign * (digitsToNat int : ℚ) * (10 : ℚ) ^ e)), cs4)

mutual

/-- One JSON value (`json.Unmarshal` into `interface{}`), fuel-driven:
null/true/false, strings, arrays (`[]interface{}`), objects
(`map[string]interface{}` — modelled as an entry list in source order;
a Go map carries no order, and nothing downstream observes it), and
numbers (`float64`). -/
def parseJSONValue : Nat → List Char → Option (GoVal × List Char)
  | 0, _ => none
  | fuel + 1, cs =>
    match jsonSkipWs cs with
    | 'n' :: 'u' :: 'l' :: 'l' :: rest => some (.gnil, rest)
    | 't' :: 'r' :: 'u' :: 'e' :: rest => some (.gbool true, rest)
    | 'f' :: 'a' :: 'l' :: 's' :: 'e' :: rest => some (.gbool false, rest)
    | '"' :: rest => (parseJSONStringBody rest).map fun p => (.gstr (String.mk p.1), p.2)
    | '[' :: rest =>
      (match jsonSkipWs rest with
        | ']' :: rest2 => some (.garr [], rest2)
        | _ => (parseJSONArrayItems fuel rest).map fun p => (.garr p.1, p.2))
    | '{' :: rest =>
      (match jsonSkipWs rest with
        | '}' :: rest2 => some (.gobj [], rest2)
        | _ => (parseJSONObjectItems fuel rest).map fun p => (.gobj p.1, p.2))
    | cs2 => parseJSONNumber cs2

/-- The comma-separated items of a non-empty JSON array, up to and
including the closing bracket. -/
def parseJSONArrayItems : Nat → List Char → Option (List GoVal × List Char)
  | 0, _ => none
  | fuel + 1, cs => do
    let (v, rest) ← parseJSONValue fuel cs
    match jsonSkipWs rest with
    | ',' :: rest2 => (parseJSONArrayItems fuel rest2).map fun p => (v :: p.1, p.2)
    | ']' :: rest2 => some ([v], rest2)
    | _ => none

/-- The key/value pairs of a non-empty JSON object, up to and including
the closing brace. -/
def parseJSONObjectItems : Nat → List Char → Option (List (String × GoVal) × List Char)
  | 0, _ => none
  | fuel + 1, cs =>
    match jsonSkipWs cs with
    | '"' :: rest => do
      let (k, rest1) ← parseJSONStringBody rest
      match jsonSkipWs rest1 with
      | ':' :: rest2 => do
        let (v, rest3) ← parseJSONValue fuel rest2
        match jsonSkipWs rest3 with
        | ',' :: rest4 =>
          (parseJSONObjectItems fuel rest4).map fun p => ((String.mk k, v) :: p.1, p.2)
        | '}' :: rest4 => some ([(String.mk k, v)], rest4)
        | _ => none
      | _ => none
    | _ => none

end

/-- `json.Unmarshal(data, &res)` into `interface{}`: one value, with only
whitespace allowed after it.  The input length plus one is always enough
fuel (each unit of fuel consumed opens at least one character). -/
def jsonParse (s : String) : Option GoVal :=
  match parseJSONValue (s.data.length + 1) s.data with
  | some (v, rest) => if jsonSkipWs rest = [] then some v else none
  | none => none

/-- `FromJSON.Evaluate` (part_001 line 15) applied to a string argument:
unmarshal, then canonicalize with `CreateIntermediateResult`. -/
def fromJsonStr (s : String) : Except String Value :=
  match jsonParse s with
  | some g => .ok (convertToCanonicalValue g)
  | none => .error "invalid JSON input"

/-- The round trip of the claim: serialize the canonicalized value with
`toJson`, then parse the resulting text with `fromJson`. -/
def fromJson_toJson (v : GoVal) : Except String Value :=
  match toJsonFn (convertToCanonicalValue v) with
  | .ok s => fromJsonStr s
  | .error e => .error e

/-- Is a raw value a primitive that Go can marshal: null, a boolean, a
string, or a finite double (every double has an exact finite decimal)?
NaN and the infinities are `json: unsupported value`. -/
def isSerializablePrim : GoVal → Bool
  | .gnil => true
  | .gbool _ => true
  | .gstr _ => true
  | .gnum (.fin q) => (factorOut 5 (factorOut 2 q.den).2).2 == 1
  | _ => false

/-! ## C3: toJson key order -/

/-- C3 counterexample.  A mapping inserted as `b` then `a`: `toJson`
renders the keys sorted (`a` first), not in insertion order (`b` first);
the insertion-order rendering the claim describes is a different string. -/
theorem toJson_not_insertion_order :
    toJsonFn (.vobj [("b", .gnum (.fin 0)), ("a", .gnum (.fin 1))]) =
      .ok "\x7b\n  \"a\": 1,\n  \"b\": 0\n\x7d" ∧
    jsonRenderInsertion
      (goValSize (toRawV (.vobj [("b", .gnum (.fin 0)), ("a", .gnum (.fin 1))])))
      (toRawV (.vobj [("b", .gnum (.fin 0)), ("a", .gnum (.fin 1))])) 0 =
      some "\x7b\n  \"b\": 0,\n  \"a\": 1\n\x7d" ∧
    ("\x7b\n  \"a\": 1,\n  \"b\": 0\n\x7d" : String) ≠
      "\x7b\n  \"b\": 0,\n  \"a\": 1\n\x7d" := by
  refine ⟨rfl, rfl, by decide⟩

lemma insertSortedEntry_cons (kv : String × GoVal) (l : List (String × GoVal)) :
    ∃ a t, insertSortedEntry kv l = a :: t := by
  cases l with
  | nil => exact ⟨kv, [], rfl⟩
  | cons e es =>
    by_cases h : strCompareLt e.1 kv.1 = true
    · exact ⟨e, insertSortedEntry kv es, by simp [insertSortedEntry, h]⟩
    · exact ⟨kv, e :: es, by simp [insertSortedEntry, h]⟩

/-- C3 amended.  `toJson` produces the stable two-space-indented
serialization whose mappings emit their keys in byte-wise sorted order at
every nesting level: marshalling any value equals rendering its deeply
key-sorted form in insertion order, for every fuel. -/
theorem marshal_is_sorted_insertion_render :
    ∀ (fuel : Nat) (v : GoVal) (d : Nat),
      marshalGo fuel v d = jsonRenderInsertion fuel (sortDeepGo fuel v) d := by
  intro fuel
  induction fuel with
  | zero => intro v d; rfl
  | succ n ih =>
    have hlist : ∀ (L : List GoVal) (d' : Nat),
        L.mapM (fun el => marshalGo n el d') =
          (L.map fun x => sortDeepGo n x).mapM
            (fun el => jsonRenderInsertion n el d') := by
      intro L d'
      induction L with
      | nil => rfl
      | cons y ys ihL =>
        rw [List.map_cons, List.mapM_cons, List.mapM_cons, ih y d', ihL]
    have hentries : ∀ (L : List (String × GoVal)) (d' : Nat),
        L.mapM (fun kv => (marshalGo n kv.2 d').map fun str =>
          indentStr d' ++ encodeJSONString kv.1 ++ ": " ++ str) =
          (L.map fun kv => (kv.1, sortDeepGo n kv.2)).mapM
            (fun kv => (jsonRenderInsertion n kv.2 d').map fun str =>
              indentStr d' ++ encodeJSONString kv.1 ++ ": " ++ str) := by
      intro L d'
      induction L with
      | nil => rfl
      | cons y ys ihL =>
        rw [List.map_cons, List.mapM_cons, List.mapM_cons, ih y.2 d', ihL]
    intro v d
    match v with
    | .gnil => rfl
    | .gbool _ => rfl
    | .gstr _ => rfl
    | .gnum _ => rfl
    | .garr [] => rfl
    | .garr (x :: xs) =>
      show (do
          let parts ← (x :: xs).mapM fun el => marshalGo n el (d + 1)
          some ("[\n" ++ String.intercalate ",\n"
            (parts.map fun p => indentStr (d + 1) ++ p) ++ "\n" ++ indentStr d ++ "]")) =
        jsonRenderInsertion (n + 1) (.garr ((x :: xs).map fun y => sortDeepGo n y)) d
      rw [hlist]
      rfl
    | .gobj [] => rfl
    | .gobj (e :: es) =>
      obtain ⟨a, t, hsort⟩ := insertSortedEntry_cons e (sortEntries es)
      have hse : sortEntries (e :: es) = a :: t := hsort
      show (do
          let parts ← (sortEntries (e :: es)).mapM fun kv =>
            (marshalGo n kv.2 (d + 1)).map fun str =>
              indentStr (d + 1) ++ encodeJSONString kv.1 ++ ": " ++ str
          some ("\x7b\n" ++ String.intercalate ",\n" parts ++ "\n" ++ indentStr d ++ "\x7d")) =
        jsonRenderInsertion (n + 1)
          (.gobj ((sortEntries (e :: es)).map fun kv => (kv.1, sortDeepGo n kv.2))) d
      rw [hse, hentries]
      rfl

/-! ## C2 groundwork: decimal digit strings -/

lemma digitsToNat_foldl (b : List Char) : ∀ init : Nat,
    b.foldl (fun a c => a * 10 + (c.toNat - 48)) init =
      init * 10 ^ b.length + digitsToNat b := by
  induction b with
  | nil => intro init; simp [digitsToNat]
  | cons c cs ih =>
    intro init
    simp only [List.foldl_cons, digitsToNat, List.length_cons]
    rw [ih, ih (0 * 10 + (c.toNat - 48))]
    ring

lemma digitsToNat_append (a b : List Char) :
    digitsToNat (a ++ b) = digitsToNat a * 10 ^ b.length + digitsToNat b := by
  unfold digitsToNat
  rw [List.foldl_append]
  exact digitsToNat_foldl b _

lemma digitsToNat_zeros (k : Nat) (l : List Char) :
    digitsToNat (List.replicate k '0' ++ l) = digitsToNat l := by
  induction k with
  | zero => simp
  | succ n ih =>
    rw [List.replicate_succ, List.cons_append]
    show digitsToNat ('0' :: (List.replicate n '0' ++ l)) = digitsToNat l
    unfold digitsToNat at ih ⊢
    simp only [List.foldl_cons]
    rw [show (0 * 10 + ('0'.toNat - 48)) = 0 from by decide]
    exact ih

lemma natToDigitsAux_zero (f : Nat) (acc : List Char) :
    natToDigitsAux f 0 acc = acc := by
  cases f <;> simp [natToDigitsAux]

lemma natToDigitsAux_irrel (n : Nat) : ∀ f1 f2 acc, n ≤ f1 → n ≤ f2 →
    natToDigitsAux f1 n acc = natToDigitsAux f2 n acc := by
  induction n using Nat.strong_induction_on with
  | _ n IH =>
    intro f1 f2 acc h1 h2
    rcases Nat.eq_zero_or_pos n with hn | hn
    · subst hn; rw [natToDigitsAux_zero, natToDigitsAux_zero]
    · obtain ⟨g1, rfl⟩ : ∃ g, f1 = g + 1 := ⟨f1 - 1, by omega⟩
      obtain ⟨g2, rfl⟩ : ∃ g, f2 = g + 1 := ⟨f2 - 1, by omega⟩
      have hd : n / 10 < n := Nat.div_lt_self hn (by omega)
      simp only [natToDigitsAux, if_neg (by omega : ¬n = 0)]
      exact IH (n / 10) hd g1 g2 _ (by omega) (by omega)

lemma natToDigitsAux_acc (n : Nat) : ∀ f acc, n ≤ f →
    natToDigitsAux f n acc = natToDigitsAux f n [] ++ acc := by
  induction n using Nat.strong_induction_on with
  | _ n IH =>
    intro f acc hf
    rcases Nat.eq_zero_or_pos n with hn | hn
    · subst hn; rw [natToDigitsAux_zero, natToDigitsAux_zero]; simp
    · obtain ⟨g, rfl⟩ : ∃ g, f = g + 1 := ⟨f - 1, by omega⟩
      have hd : n / 10 < n := Nat.div_lt_self hn (by omega)
      simp only [natToDigitsAux, if_neg (by omega : ¬n = 0)]
      rw [IH (n / 10) hd g _ (by omega),
        IH (n / 10) hd g (Char.ofNat (48 + n % 10) :: []) (by omega)]
      simp

lemma natToDigits_step (n : Nat) (hn : 0 < n) :
    natToDigits n = natToDigits (n / 10) ++ [Char.ofNat (48 + n % 10)] := by
  obtain ⟨g, rfl⟩ : ∃ g, n = g + 1 := ⟨n - 1, by omega⟩
  unfold natToDigits
  simp only [natToDigitsAux]
  rw [if_neg (by omega : ¬g + 1 = 0)]
  rw [natToDigitsAux_acc ((g + 1) / 10) g _ (by omega),
    natToDigitsAux_irrel ((g + 1) / 10) g ((g + 1) / 10) [] (by omega) (le_refl _)]

lemma ofNat_digit_toNat : ∀ k < 10, (Char.ofNat (48 + k)).toNat = 48 + k := by decide

lemma digitsToNat_natToDigits (n : Nat) : digitsToNat (natToDigits n) = n := by
  induction n using Nat.strong_induction_on with
  | _ n IH =>
    rcases Nat.eq_zero_or_pos n with hn | hn
    · subst hn; simp [natToDigits, natToDigitsAux_zero, digitsToNat]
    · have hd : n / 10 < n := Nat.div_lt_self hn (by omega)
      rw [natToDigits_step n hn, digitsToNat_append, IH (n / 10) hd]
      have hm : n % 10 < 10 := Nat.mod_lt n (by omega)
      have : digitsToNat [Char.ofNat (48 + n % 10)] = n % 10 := by
        unfold digitsToNat
        simp [ofNat_digit_toNat (n % 10) hm]
      rw [this]
      simp
      omega

lemma natToDigits_all_digits (n : Nat) : ∀ c ∈ natToDigits n, isDigitCh c = true := by
  induction n using Nat.strong_induction_on with
  | _ n IH =>
    rcases Nat.eq_zero_or_pos n with hn | hn
    · subst hn; simp [natToDigits, natToDigitsAux_zero]
    · have hd : n / 10 < n := Nat.div_lt_self hn (by omega)
      rw [natToDigits_step n hn]
      intro c hc
      rcases List.mem_append.mp hc with h | h
      · exact IH (n / 10) hd c h
      · have hm : n % 10 < 10 := Nat.mod_lt n (by omega)
        rcases List.mem_singleton.mp h with rfl
        revert hm
        have : ∀ k < 10, isDigitCh (Char.ofNat (48 + k)) = true := by decide
        exact this (n % 10)

lemma natToDigits_head (n : Nat) (hn : 0 < n) :
    ∃ c cs, natToDigits n = c :: cs ∧ c ≠ '0' := by
  induction n using Nat.strong_induction_on with
  | _ n IH =>
    rcases Nat.lt_or_ge n 10 with hlt | hge
    · have h10 : n / 10 = 0 := Nat.div_eq_of_lt hlt
      rw [natToDigits_step n hn, h10]
      have : natToDigits 0 = [] := by simp [natToDigits, natToDigitsAux_zero]
      rw [this, List.nil_append]
      have hm : n % 10 = n := Nat.mod_eq_of_lt hlt
      refine ⟨Char.ofNat (48 + n % 10), [], rfl, ?_⟩
      rw [hm]
      have : ∀ k < 10, 0 < k → Char.ofNat (48 + k) ≠ '0' := by decide
      exact this n hlt hn
    · have hd : n / 10 < n := Nat.div_lt_self hn (by omega)
      have hdp : 0 < n / 10 := Nat.div_pos hge (by omega)
      obtain ⟨c, cs, hc, hne⟩ := IH (n / 10) hd hdp
      rw [natToDigits_step n hn, hc]
      exact ⟨c, cs ++ [Char.ofNat (48 + n % 10)], rfl, hne⟩


/-! ## C2 groundwork: factoring the denominator -/

lemma factorOutAux_spec : ∀ (f p n : Nat), 2 ≤ p → 0 < n → n ≤ f →
    n = p ^ (factorOutAux f p n).1 * (factorOutAux f p n).2 ∧
      ¬p ∣ (factorOutAux f p n).2 := by
  intro f
  induction f with
  | zero => intro p n _ hn hf; omega
  | succ g ih =>
    intro p n hp hn hf
    by_cases hc : 2 ≤ p ∧ 0 < n ∧ n % p = 0
    · have hdvd : p ∣ n := Nat.dvd_of_mod_eq_zero hc.2.2
      have hnp : 0 < n / p := Nat.div_pos (Nat.le_of_dvd hn hdvd) (by omega)
      have hlt : n / p < n := Nat.div_lt_self hn (by omega)
      obtain ⟨h1, h2⟩ := ih p (n / p) hp hnp (by omega)
      simp only [factorOutAux, if_pos hc]
      refine ⟨?_, h2⟩
      calc n = p * (n / p) := (Nat.mul_div_cancel' hdvd).symm
        _ = p ^ ((factorOutAux g p (n / p)).1 + 1) * (factorOutAux g p (n / p)).2 := by
            rw [pow_succ]
            conv_lhs => rw [h1]
            ring
    · simp only [factorOutAux, if_neg hc]
      refine ⟨by simp, ?_⟩
      intro hd
      exact hc ⟨hp, hn, Nat.mod_eq_zero_of_dvd hd⟩

lemma factorOut_spec (p n : Nat) (hp : 2 ≤ p) (hn : 0 < n) :
    n = p ^ (factorOut p n).1 * (factorOut p n).2 ∧ ¬p ∣ (factorOut p n).2 :=
  factorOutAux_spec n p n hp hn (le_refl n)

lemma den_dvd_pow10 (q : ℚ) (h : (factorOut 5 (factorOut 2 q.den).2).2 = 1) :
    q.den ∣ 10 ^ (max (factorOut 2 q.den).1 (factorOut 5 (factorOut 2 q.den).2).1) := by
  have hden : 0 < q.den := q.pos
  obtain ⟨h2, _⟩ := factorOut_spec 2 q.den (by omega) hden
  have hm2 : 0 < (factorOut 2 q.den).2 := by
    rcases Nat.eq_zero_or_pos (factorOut 2 q.den).2 with hz | hpos
    · rw [hz, Nat.mul_zero] at h2; omega
    · exact hpos
  obtain ⟨h5, _⟩ := factorOut_spec 5 (factorOut 2 q.den).2 (by omega) hm2
  rw [h, Nat.mul_one] at h5
  set a := (factorOut 2 q.den).1
  set b := (factorOut 5 (factorOut 2 q.den).2).1
  have : q.den = 2 ^ a * 5 ^ b := by rw [h2, h5]
  rw [this]
  have h10 : (10 : Nat) ^ max a b = 2 ^ max a b * 5 ^ max a b := by
    rw [← Nat.mul_pow]
  rw [h10]
  exact Nat.mul_dvd_mul (Nat.pow_dvd_pow 2 (le_max_left a b))
    (Nat.pow_dvd_pow 5 (le_max_right a b))


/-! ## C2 groundwork: scanning digit prefixes -/

lemma takeWhile_all_append (p : Char → Bool) (a : List Char)
    (ha : ∀ c ∈ a, p c = true) (l : List Char) :
    (a ++ l).takeWhile p = a ++ l.takeWhile p := by
  induction a with
  | nil => simp
  | cons c cs ih =>
    simp only [List.cons_append, List.takeWhile_cons, ha c (by simp), List.cons.injEq,
      true_and, if_true]
    exact ih fun x hx => ha x (by simp [hx])

lemma dropWhile_all_append (p : Char → Bool) (a : List Char)
    (ha : ∀ c ∈ a, p c = true) (l : List Char) :
    (a ++ l).dropWhile p = l.dropWhile p := by
  induction a with
  | nil => simp
  | cons c cs ih =>
    simp only [List.cons_append, List.dropWhile_cons, ha c (by simp), if_true]
    exact ih fun x hx => ha x (by simp [hx])

lemma takeWhile_all (p : Char → Bool) (a : List Char)
    (ha : ∀ c ∈ a, p c = true) : a.takeWhile p = a := by
  have := takeWhile_all_append p a ha []
  simpa using this

lemma dropWhile_all (p : Char → Bool) (a : List Char)
    (ha : ∀ c ∈ a, p c = true) : a.dropWhile p = [] := by
  have := dropWhile_all_append p a ha []
  simpa using this

lemma parseExpPart_nil : parseExpPart [] = some (0, []) := rfl


lemma isDigitCh_ne_hyphen {d : Char} (hd : isDigitCh d = true) : d ≠ '-' := by
  intro h
  rw [h] at hd
  exact absurd hd (by decide)

lemma parseJSONNumber_int_pos (int : List Char)
    (hint : ∀ c ∈ int, isDigitCh c = true) (hne : int ≠ [])
    (hlead : ¬(1 < int.length ∧ int.headD '0' = '0')) :
    parseJSONNumber int = some (.gnum (.fin (digitsToNat int : ℚ)), []) := by
  obtain ⟨d, ds, rfl⟩ := List.exists_cons_of_ne_nil hne
  have hd : isDigitCh d = true := hint d (by simp)
  have hneg : (((d :: ds).headD ' ') == '-') = false := by
    simp only [List.headD_cons, beq_eq_false_iff_ne, ne_eq]
    exact isDigitCh_ne_hyphen hd
  simp only [parseJSONNumber, hneg, Bool.false_eq_true, if_false]
  rw [takeWhile_all _ _ hint, dropWhile_all _ _ hint]
  rw [if_neg (by simp : ¬(d :: ds = [])), if_neg hlead]
  rw [parseExpPart_nil]
  simp


lemma parseJSONNumber_int_neg (int : List Char)
    (hint : ∀ c ∈ int, isDigitCh c = true) (hne : int ≠ [])
    (hlead : ¬(1 < int.length ∧ int.headD '0' = '0')) :
    parseJSONNumber ('-' :: int) =
      some (.gnum (.fin (-(digitsToNat int : ℚ))), []) := by
  obtain ⟨d, ds, rfl⟩ := List.exists_cons_of_ne_nil hne
  simp only [parseJSONNumber, List.headD_cons, List.tail_cons, beq_self_eq_true, if_true]
  rw [takeWhile_all _ _ hint, dropWhile_all _ _ hint]
  rw [if_neg (by simp : ¬(d :: ds = [])), if_neg hlead]
  rw [parseExpPart_nil]
  simp

lemma parseJSONNumber_frac_pos (int frac : List Char)
    (hint : ∀ c ∈ int, isDigitCh c = true) (hfrac : ∀ c ∈ frac, isDigitCh c = true)
    (hne : int ≠ []) (hfne : frac ≠ [])
    (hlead : ¬(1 < int.length ∧ int.headD '0' = '0')) :
    parseJSONNumber (int ++ '.' :: frac) =
      some (.gnum (.fin ((digitsToNat (int ++ frac) : ℚ) / (10 : ℚ) ^ frac.length)), []) := by
  obtain ⟨d, ds, rfl⟩ := List.exists_cons_of_ne_nil hne
  have hd : isDigitCh d = true := hint d (by simp)
  have hneg : ((((d :: ds) ++ '.' :: frac).headD ' ') == '-') = false := by
    simp only [List.cons_append, List.headD_cons, beq_eq_false_iff_ne, ne_eq]
    exact isDigitCh_ne_hyphen hd
  simp only [parseJSONNumber, hneg, Bool.false_eq_true, if_false]
  rw [takeWhile_all_append _ _ hint, dropWhile_all_append _ _ hint]
  rw [show ('.' :: frac).takeWhile isDigitCh = [] from by
    simp [List.takeWhile_cons, isDigitCh]]
  rw [show ('.' :: frac).dropWhile isDigitCh = '.' :: frac from by
    simp [List.dropWhile_cons, isDigitCh]]
  rw [List.append_nil]
  rw [if_neg (by simp : ¬(d :: ds = [])), if_neg hlead]
  split
  · rename_i t heq
    obtain rfl : t = frac := by injection heq with h1 h2; exact h2.symm
    rw [takeWhile_all _ _ hfrac, dropWhile_all _ _ hfrac]
    rw [if_neg hfne, parseExpPart_nil]
    simp
  · rename_i hnomatch
    exact absurd rfl (hnomatch frac)

lemma parseJSONNumber_frac_neg (int frac : List Char)
    (hint : ∀ c ∈ int, isDigitCh c = true) (hfrac : ∀ c ∈ frac, isDigitCh c = true)
    (hne : int ≠ []) (hfne : frac ≠ [])
    (hlead : ¬(1 < int.length ∧ int.headD '0' = '0')) :
    parseJSONNumber ('-' :: (int ++ '.' :: frac)) =
      some (.gnum (.fin (-((digitsToNat (int ++ frac) : ℚ) / (10 : ℚ) ^ frac.length))), []) := by
  obtain ⟨d, ds, rfl⟩ := List.exists_cons_of_ne_nil hne
  simp only [parseJSONNumber, List.headD_cons, List.tail_cons, beq_self_eq_true, if_true]
  rw [takeWhile_all_append _ _ hint, dropWhile_all_append _ _ hint]
  rw [show ('.' :: frac).takeWhile isDigitCh = [] from by
    simp [List.takeWhile_cons, isDigitCh]]
  rw [show ('.' :: frac).dropWhile isDigitCh = '.' :: frac from by
    simp [List.dropWhile_cons, isDigitCh]]
  rw [List.append_nil]
  rw [if_neg (by simp : ¬(d :: ds = [])), if_neg hlead]
  split
  · rename_i t heq
    obtain rfl : t = frac := by injection heq with h1 h2; exact h2.symm
    rw [takeWhile_all _ _ hfrac, dropWhile_all _ _ hfrac]
    rw [if_neg hfne, parseExpPart_nil]
    simp
  · rename_i hnomatch
    exact absurd rfl (hnomatch frac)


lemma natDigitString_all_digits (n : Nat) :
    ∀ c ∈ natDigitString n, isDigitCh c = true := by
  unfold natDigitString
  by_cases h : n = 0
  · rw [if_pos h]; intro c hc; rcases List.mem_singleton.mp hc with rfl; decide
  · rw [if_neg h]; exact natToDigits_all_digits n

lemma natDigitString_ne_nil (n : Nat) : natDigitString n ≠ [] := by
  unfold natDigitString
  by_cases h : n = 0
  · rw [if_pos h]; simp
  · rw [if_neg h]
    obtain ⟨c, cs, hc, _⟩ := natToDigits_head n (by omega)
    rw [hc]; simp

lemma digitsToNat_natDigitString (n : Nat) : digitsToNat (natDigitString n) = n := by
  unfold natDigitString
  by_cases h : n = 0
  · rw [if_pos h, h]; decide
  · rw [if_neg h]; exact digitsToNat_natToDigits n

lemma natDigitString_lead (n : Nat) :
    ¬(1 < (natDigitString n).length ∧ (natDigitString n).headD '0' = '0') := by
  unfold natDigitString
  by_cases h : n = 0
  · rw [if_pos h]; simp
  · rw [if_neg h]
    obtain ⟨c, cs, hc, hne⟩ := natToDigits_head n (by omega)
    rw [hc]
    rintro ⟨_, hh⟩
    exact hne (by simpa using hh)

lemma natDigitString_head_digit (n : Nat) :
    isDigitCh ((natDigitString n).headD '0') = true := by
  obtain ⟨c, cs, hc⟩ := List.exists_cons_of_ne_nil (natDigitString_ne_nil n)
  rw [hc]
  exact natDigitString_all_digits n c (by rw [hc]; simp)

lemma scaled_div_pow (q : ℚ) (e : Nat) (hdvd : q.den ∣ 10 ^ e) :
    ((q.num.natAbs * 10 ^ e / q.den : ℕ) : ℚ) / (10 : ℚ) ^ e =
      (q.num.natAbs : ℚ) / (q.den : ℚ) := by
  have hd0 : (q.den : ℚ) ≠ 0 := Nat.cast_ne_zero.mpr (by have := q.pos; omega)
  rw [Nat.cast_div (Dvd.dvd.mul_left hdvd _) hd0]
  push_cast
  rw [div_div]
  exact mul_div_mul_right _ _ (by positivity)

lemma rat_eq_sign_natAbs (q : ℚ) :
    q = (if q.num < 0 then (-1 : ℚ) else 1) * ((q.num.natAbs : ℚ) / (q.den : ℚ)) := by
  have habs : ((q.num.natAbs : ℕ) : ℚ) = |(q.num : ℚ)| := by
    rw [Int.cast_natAbs, Int.cast_abs]
  conv_lhs => rw [← Rat.num_div_den q]
  by_cases h : q.num < 0
  · rw [if_pos h, habs, abs_of_neg (by exact_mod_cast h)]
    ring
  · rw [if_neg h, habs, abs_of_nonneg (by exact_mod_cast not_lt.mp h)]
    ring


lemma parseJSONNumber_ratDecimal (q : ℚ) (str : String)
    (h : ratDecimalString q = some str) :
    parseJSONNumber str.data = some (.gnum (.fin q), []) ∧
      ∃ c cs, str.data = c :: cs ∧ (c = '-' ∨ isDigitCh c = true) := by
  by_cases hser : (factorOut 5 (factorOut 2 q.den).2).2 = 1
  · simp only [ratDecimalString] at h
    rw [if_neg (not_not_intro hser)] at h
    set e := max (factorOut 2 q.den).1 (factorOut 5 (factorOut 2 q.den).2).1 with he_def
    set scaled := q.num.natAbs * 10 ^ e / q.den with hscaled_def
    set ds0 := natDigitString scaled with hds0_def
    set ds := List.replicate (e + 1 - ds0.length) '0' ++ ds0 with hds_def
    have hdata : str.data =
        (if q.num < 0 then
          '-' :: (if e = 0 then ds
            else ds.take (ds.length - e) ++ '.' :: ds.drop (ds.length - e))
        else (if e = 0 then ds
            else ds.take (ds.length - e) ++ '.' :: ds.drop (ds.length - e))) := by
      rw [← Option.some.inj h]
    have hdvd : q.den ∣ 10 ^ e := den_dvd_pow10 q hser
    have hsc : ((scaled : ℕ) : ℚ) / (10 : ℚ) ^ e =
        (q.num.natAbs : ℚ) / (q.den : ℚ) := scaled_div_pow q e hdvd
    have hq := rat_eq_sign_natAbs q
    have hds0dig : ∀ c ∈ ds0, isDigitCh c = true := natDigitString_all_digits scaled
    have hds0ne : ds0 ≠ [] := natDigitString_ne_nil scaled
    have hds0lead : ¬(1 < ds0.length ∧ ds0.headD '0' = '0') :=
      natDigitString_lead scaled
    have hds0val : digitsToNat ds0 = scaled := digitsToNat_natDigitString scaled
    have hlen0 : 1 ≤ ds0.length := List.length_pos.mpr hds0ne
    have hdsdig : ∀ c ∈ ds, isDigitCh c = true := by
      intro c hc
      rcases List.mem_append.mp (hds_def ▸ hc) with hm | hm
      · rcases List.eq_of_mem_replicate hm with rfl; decide
      · exact hds0dig c hm
    have hdsval : digitsToNat ds = scaled := by
      rw [hds_def, digitsToNat_zeros, hds0val]
    by_cases he0 : e = 0
    · have hden1 : q.den = 1 := Nat.dvd_one.mp (by simpa [he0] using hdvd)
      have hscal : ((scaled : ℕ) : ℚ) = (q.num.natAbs : ℚ) / (q.den : ℚ) := by
        rw [← hsc, he0]; simp
      have hds : ds = ds0 := by
        rw [hds_def, he0, show 0 + 1 - ds0.length = 0 from by omega]
        simp
      rw [if_pos he0, hds] at hdata
      by_cases hsgn : q.num < 0
      · rw [if_pos hsgn] at hdata
        refine ⟨?_, '-', ds0, hdata, Or.inl rfl⟩
        rw [hdata, parseJSONNumber_int_neg ds0 hds0dig hds0ne hds0lead]
        have hv : -((digitsToNat ds0 : ℕ) : ℚ) = q := by
          rw [hds0val, hscal]
          conv_rhs => rw [hq, if_pos hsgn]
          ring
        rw [hv]
      · rw [if_neg hsgn] at hdata
        obtain ⟨c, cs, hcons⟩ := List.exists_cons_of_ne_nil hds0ne
        refine ⟨?_, c, cs, by rw [hdata, hcons],
          Or.inr (hds0dig c (by rw [hcons]; simp))⟩
        rw [hdata, parseJSONNumber_int_pos ds0 hds0dig hds0ne hds0lead]
        have hv : ((digitsToNat ds0 : ℕ) : ℚ) = q := by
          rw [hds0val, hscal]
          conv_rhs => rw [hq, if_neg hsgn]
          ring
        rw [hv]
    · rw [if_neg he0] at hdata
      have hL : ds.length = (e + 1 - ds0.length) + ds0.length := by
        rw [hds_def]; simp
      have hLe : e + 1 ≤ ds.length := by omega
      have hIF : ds.take (ds.length - e) ++ ds.drop (ds.length - e) = ds :=
        List.take_append_drop _ _
      have hFlen : (ds.drop (ds.length - e)).length = e := by
        rw [List.length_drop]; omega
      have hIlen : 1 ≤ (ds.take (ds.length - e)).length := by
        rw [List.length_take]; omega
      have hIne : ds.take (ds.length - e) ≠ [] := by
        intro hnil; rw [hnil] at hIlen; simp at hIlen
      have hFne : ds.drop (ds.length - e) ≠ [] := by
        intro hnil; rw [hnil] at hFlen; simp at hFlen; omega
      have hIdig : ∀ c ∈ ds.take (ds.length - e), isDigitCh c = true :=
        fun c hc => hdsdig c (List.mem_of_mem_take hc)
      have hFdig : ∀ c ∈ ds.drop (ds.length - e), isDigitCh c = true :=
        fun c hc => hdsdig c (List.mem_of_mem_drop hc)
      have hIFval : digitsToNat (ds.take (ds.length - e) ++ ds.drop (ds.length - e)) =
          scaled := by rw [hIF, hdsval]
      have hlead : ¬(1 < (ds.take (ds.length - e)).length ∧
          (ds.take (ds.length - e)).headD '0' = '0') := by
        rintro ⟨hlen, hhead⟩
        rw [List.length_take] at hlen
        have hlen2 : 1 < ds.length - e := by omega
        have hlen0big : e + 1 < ds0.length := by omega
        have hdseq : ds = ds0 := by
          rw [hds_def, show e + 1 - ds0.length = 0 from by omega]
          simp
        have hscpos : scaled ≠ 0 := by
          intro hz
          rw [hds0_def, hz] at hlen0big
          simp [natDigitString] at hlen0big
        have hds0nat : ds0 = natToDigits scaled := by
          rw [hds0_def, natDigitString, if_neg hscpos]
        obtain ⟨c, cs, hcons, hc0⟩ := natToDigits_head scaled (by omega)
        obtain ⟨m, hm⟩ : ∃ m, ds.length - e = m + 1 := ⟨ds.length - e - 1, by omega⟩
        rw [hm, hdseq, hds0nat, hcons, List.take_succ_cons] at hhead
        exact hc0 (by simpa using hhead)
      by_cases hsgn : q.num < 0
      · rw [if_pos hsgn] at hdata
        refine ⟨?_, '-', _, hdata, Or.inl rfl⟩
        rw [hdata, parseJSONNumber_frac_neg _ _ hIdig hFdig hIne hFne hlead]
        have hv : -(((digitsToNat (ds.take (ds.length - e) ++ ds.drop (ds.length - e)) : ℕ) : ℚ) /
            (10 : ℚ) ^ (ds.drop (ds.length - e)).length) = q := by
          rw [hIFval, hFlen, hsc]
          conv_rhs => rw [hq, if_pos hsgn]
          ring
        rw [hv]
      · rw [if_neg hsgn] at hdata
        obtain ⟨c, cs, hcons⟩ := List.exists_cons_of_ne_nil hIne
        have hcd : isDigitCh c = true := hIdig c (by rw [hcons]; simp)
        refine ⟨?_, c, cs ++ '.' :: ds.drop (ds.length - e),
          by rw [hdata, hcons]; simp, Or.inr hcd⟩
        rw [hdata, parseJSONNumber_frac_pos _ _ hIdig hFdig hIne hFne hlead]
        have hv : (((digitsToNat (ds.take (ds.length - e) ++ ds.drop (ds.length - e)) : ℕ) : ℚ) /
            (10 : ℚ) ^ (ds.drop (ds.length - e)).length) = q := by
          rw [hIFval, hFlen, hsc]
          conv_rhs => rw [hq, if_neg hsgn]
          ring
        rw [hv]
  · simp only [ratDecimalString] at h
    rw [if_pos hser] at h
    exact absurd h (by simp)


lemma numberHead_props (c : Char) (h : c = '-' ∨ isDigitCh c = true) :
    isJSONWs c = false ∧ c ≠ 'n' ∧ c ≠ 't' ∧ c ≠ 'f' ∧ c ≠ '"' ∧
      c ≠ '[' ∧ c ≠ '{' := by
  rcases h with rfl | hd
  · refine ⟨by decide, by decide, by decide, by decide, by decide, by decide, by decide⟩
  · constructor
    · cases hw : isJSONWs c
      · rfl
      · exfalso
        have hcs : c = ' ' ∨ c = '\t' ∨ c = '\n' ∨ c = '\r' := by
          simpa [isJSONWs] using hw
        rcases hcs with rfl | rfl | rfl | rfl <;> exact absurd hd (by decide)
    refine ⟨?_, ?_, ?_, ?_, ?_, ?_⟩ <;> (rintro rfl; exact absurd hd (by decide))

lemma parseJSONValue_number (fuel : Nat) (c : Char) (cs : List Char)
    (hws : isJSONWs c = false) (hn : c ≠ 'n') (ht : c ≠ 't') (hf : c ≠ 'f')
    (hq : c ≠ '"') (hb : c ≠ '[') (ho : c ≠ '{') :
    parseJSONValue (fuel + 1) (c :: cs) = parseJSONNumber (c :: cs) := by
  have hskip : jsonSkipWs (c :: cs) = c :: cs := by
    simp [jsonSkipWs, List.dropWhile_cons, hws]
  simp only [parseJSONValue, hskip]
  split <;> simp_all


lemma hexDigitVal_hexDigitChar : ∀ d : Nat, d < 16 → hexDigitVal? (hexDigitChar d) = some d := by
  decide

lemma parseJSONStringBody_roundtrip : ∀ l : List Char,
    parseJSONStringBody (l.flatMap escapeJSONChar ++ ['"']) = some (l, []) := by
  intro l
  induction l with
  | nil => rfl
  | cons c rest ih =>
    rw [List.flatMap_cons, List.append_assoc]
    by_cases h1 : c = '"'
    · subst h1
      rw [show escapeJSONChar '"' = ['\\', '"'] from rfl]
      show (parseJSONStringBody (rest.flatMap escapeJSONChar ++ ['"'])).map
        (fun p => ('"' :: p.1, p.2)) = _
      rw [ih]
      rfl
    by_cases h2 : c = '\\'
    · subst h2
      rw [show escapeJSONChar '\\' = ['\\', '\\'] from rfl]
      show (parseJSONStringBody (rest.flatMap escapeJSONChar ++ ['"'])).map
        (fun p => ('\\' :: p.1, p.2)) = _
      rw [ih]
      rfl
    by_cases h3 : c = '\n'
    · subst h3
      rw [show escapeJSONChar '\n' = ['\\', 'n'] from rfl]
      show (parseJSONStringBody (rest.flatMap escapeJSONChar ++ ['"'])).map
        (fun p => ('\n' :: p.1, p.2)) = _
      rw [ih]
      rfl
    by_cases h4 : c = '\r'
    · subst h4
      rw [show escapeJSONChar '\r' = ['\\', 'r'] from rfl]
      show (parseJSONStringBody (rest.flatMap escapeJSONChar ++ ['"'])).map
        (fun p => ('\r' :: p.1, p.2)) = _
      rw [ih]
      rfl
    by_cases h5 : c = '\t'
    · subst h5
      rw [show escapeJSONChar '\t' = ['\\', 't'] from rfl]
      show (parseJSONStringBody (rest.flatMap escapeJSONChar ++ ['"'])).map
        (fun p => ('\t' :: p.1, p.2)) = _
      rw [ih]
      rfl
    by_cases h6 : c.toNat < 32 ∨ c = '<' ∨ c = '>' ∨ c = '&' ∨
        c.toNat = 8232 ∨ c.toNat = 8233
    · have hesc : escapeJSONChar c = '\\' :: 'u' :: encodeHex4 c.toNat := by
        unfold escapeJSONChar
        rw [if_neg h1, if_neg h2, if_neg h3, if_neg h4, if_neg h5, if_pos h6]
      have hb : c.toNat < 65536 := by
        rcases h6 with h | h | h | h | h | h
        · omega
        · subst h; decide
        · subst h; decide
        · subst h; decide
        · omega
        · omega
      rw [hesc]
      simp only [encodeHex4, List.cons_append]
      show (do
        let d1 ← hexDigitVal? (hexDigitChar (c.toNat / 4096 % 16))
        let d2 ← hexDigitVal? (hexDigitChar (c.toNat / 256 % 16))
        let d3 ← hexDigitVal? (hexDigitChar (c.toNat / 16 % 16))
        let d4 ← hexDigitVal? (hexDigitChar (c.toNat % 16))
        let p ← parseJSONStringBody (rest.flatMap escapeJSONChar ++ ['"'])
        some (Char.ofNat (((d1 * 16 + d2) * 16 + d3) * 16 + d4) :: p.1, p.2)) = _
      rw [hexDigitVal_hexDigitChar _ (by omega), hexDigitVal_hexDigitChar _ (by omega),
        hexDigitVal_hexDigitChar _ (by omega), hexDigitVal_hexDigitChar _ (by omega), ih]
      show some (Char.ofNat (((c.toNat / 4096 % 16 * 16 + c.toNat / 256 % 16) * 16 +
        c.toNat / 16 % 16) * 16 + c.toNat % 16) :: rest, []) = some (c :: rest, [])
      rw [show ((c.toNat / 4096 % 16 * 16 + c.toNat / 256 % 16) * 16 +
        c.toNat / 16 % 16) * 16 + c.toNat % 16 = c.toNat from by omega]
      rw [Char.ofNat_toNat]
    · have hesc : escapeJSONChar c = [c] := by
        unfold escapeJSONChar
        rw [if_neg h1, if_neg h2, if_neg h3, if_neg h4, if_neg h5, if_neg h6]
      rw [hesc, List.cons_append, List.nil_append]
      rw [parseJSONStringBody.eq_def]
      simp only []
      rw [if_neg h1, if_neg h2, ih]
      rfl


lemma parseJSONValue_string (fuel : Nat) (cs : List Char) :
    parseJSONValue (fuel + 1) ('"' :: cs) =
      (parseJSONStringBody cs).map fun p => (.gstr (String.mk p.1), p.2) := rfl

lemma fromJson_toJson_gstr (s : String) :
    fromJson_toJson (.gstr s) = .ok (.vstr s) := by
  obtain ⟨l⟩ := s
  have htj : toJsonFn (convertToCanonicalValue (.gstr (String.mk l))) =
      .ok (encodeJSONString (String.mk l)) := rfl
  unfold fromJson_toJson
  rw [htj]
  show fromJsonStr (encodeJSONString (String.mk l)) = .ok (.vstr (String.mk l))
  unfold fromJsonStr jsonParse
  have hdata : (encodeJSONString (String.mk l)).data =
      '"' :: (l.flatMap escapeJSONChar ++ ['"']) := rfl
  rw [hdata, parseJSONValue_string, parseJSONStringBody_roundtrip]
  rfl

lemma fromJson_toJson_gnum (q : ℚ) (hser : (factorOut 5 (factorOut 2 q.den).2).2 = 1) :
    fromJson_toJson (.gnum (.fin q)) = .ok (.vnum (.fin q)) := by
  obtain ⟨str, hstr⟩ : ∃ str, ratDecimalString q = some str := by
    unfold ratDecimalString
    rw [if_neg (not_not_intro hser)]
    exact ⟨_, rfl⟩
  obtain ⟨hparse, c, cs, hcons, hhead⟩ := parseJSONNumber_ratDecimal q str hstr
  obtain ⟨hws, hn, ht, hf, hq2, hb, ho⟩ := numberHead_props c hhead
  rw [hcons] at hparse
  have htj : toJsonFn (convertToCanonicalValue (.gnum (.fin q))) =
      (match ratDecimalString q with
        | some s => Except.ok s
        | none => Except.error "json: unsupported value") := rfl
  unfold fromJson_toJson
  rw [htj, hstr]
  show fromJsonStr str = .ok (.vnum (.fin q))
  unfold fromJsonStr jsonParse
  rw [hcons, parseJSONValue_number _ c cs hws hn ht hf hq2 hb ho, hparse]
  rfl


/-! ## C2: the fromJson/toJson round trip -/

/-- C2 counterexample.  The claim quantifies over all serializable values,
including arrays and mappings; but the round trip of a collection is never
abstract-equal to the canonicalized original, because `abstractEqual`
returns false whenever both sides are collections (they all coerce with
kind `object` and fall to the default false branch).  Witnessed by the
empty array and the empty mapping, whose round trips succeed and
reproduce the same collection exactly. -/
theorem fromJson_toJson_collections_not_abstractEqual :
    fromJson_toJson (.garr []) = .ok (.varr []) ∧
      abstractEqual (.varr []) (convertToCanonicalValue (.garr [])) = false ∧
      fromJson_toJson (.gobj []) = .ok (.vobj []) ∧
      abstractEqual (.vobj []) (convertToCanonicalValue (.gobj [])) = false := by
  refine ⟨rfl, ?_, rfl, ?_⟩ <;> simp [abstractEqual, coerceTypes, getKindV, convertToCanonicalValue]

/-- C2, amended.  For every *primitive* value `v` that Go can marshal
(null, a boolean, a string, or a finite double — every finite double has
an exact decimal form, and NaN/±Inf are marshalling errors), evaluating
`fromJson(toJson(v))` succeeds and yields a result that is abstract-equal
to the canonicalized `v`.  The original claim's extension to arrays and
mappings fails (see the counterexample): `abstractEqual` is false on any
pair of collections. -/
theorem fromJson_toJson_primitive (v : GoVal) (h : isSerializablePrim v = true) :
    ∃ w, fromJson_toJson v = .ok w ∧
      abstractEqual w (convertToCanonicalValue v) = true := by
  cases v with
  | gnil =>
    exact ⟨.vnull, rfl,
      by simp [abstractEqual, coerceTypes, getKindV, convertToCanonicalValue]⟩
  | gbool b =>
    cases b
    · exact ⟨.vbool false, rfl,
        by simp [abstractEqual, coerceTypes, getKindV, convertToCanonicalValue]⟩
    · exact ⟨.vbool true, rfl,
        by simp [abstractEqual, coerceTypes, getKindV, convertToCanonicalValue]⟩
  | gstr s =>
    exact ⟨.vstr s, fromJson_toJson_gstr s,
      by simp [abstractEqual, coerceTypes, getKindV, convertToCanonicalValue,
        strEqualFold]⟩
  | gnum n =>
    cases n with
    | fin q =>
      have hser : (factorOut 5 (factorOut 2 q.den).2).2 = 1 := by
        simpa [isSerializablePrim] using h
      exact ⟨.vnum (.fin q), fromJson_toJson_gnum q hser,
        by simp [abstractEqual, coerceTypes, getKindV, convertToCanonicalValue,
          numEq]⟩
    | nan => simp [isSerializablePrim] at h
    | posInf => simp [isSerializablePrim] at h
    | negInf => simp [isSerializablePrim] at h
  | garr xs => simp [isSerializablePrim] at h
  | gobj es => simp [isSerializablePrim] at h

/-- Witness for C2: the round trip at the concrete string "Ab". -/
theorem fromJson_toJson_primitive_witness :
    isSerializablePrim (.gstr "Ab") = true ∧
      ∃ w, fromJson_toJson (.gstr "Ab") = .ok w ∧
        abstractEqual w (convertToCanonicalValue (.gstr "Ab")) = true :=
  ⟨rfl, fromJson_toJson_primitive (.gstr "Ab") rfl⟩

end ActCli
